import Mathlib

/-!
Verification development for the AIND repository.

Part I models the Isolation game core (board, legal-move generation,
minimax and alpha-beta search, the time-bounded driver).  The game-engine
sources (isolation.py, game_agent.py) are not present in this snapshot of
the repository -- only their unit test agent_test.py is -- so the board and
the search engine are modelled from the specification (spec.md sections
3, 4.1-4.5), faithful to its words: queen-style moves, immutable successor
boards, a node-expansion counter incremented once per search call, and
first-move-wins tie-breaking.

Part II embeds src/AIND-Recognizer/my_recognizer.py and
src/AIND-Recognizer/my_model_selectors.py.  Python exceptions are modelled
as Option (none = the call raised), float log-likelihoods as rationals,
and float(-Inf) / float(Inf) as bottom / top elements.
-/

namespace AIND

/-! ### Scores

Search scores: real-valued utilities extended with -infinity and
+infinity, which initialize the alpha/beta bounds at the root. -/

abbrev Score := WithBot (WithTop ℤ)

def intScore (x : ℤ) : Score := ((x : WithTop ℤ) : Score)

/-! ### Part I: the Board (modelled from the spec, section 3 and 4.1)

`Modelled from the spec:` the class isolation.Board is not in src/.
Grid occupancy is a bitmask over row-major cell indices; the position of
a player is `none` before the first move ("not yet placed" sentinel);
`p1ToMove` records the active player. -/

structure Board where
  width : Nat
  height : Nat
  blocked : Nat
  pos1 : Option (Nat × Nat)
  pos2 : Option (Nat × Nat)
  p1ToMove : Bool
deriving DecidableEq, Repr

def Board.init (w h : Nat) : Board := ⟨w, h, 0, none, none, true⟩

def cellIdx (b : Board) (rc : Nat × Nat) : Nat := rc.1 * b.width + rc.2

def inBoundsCell (b : Board) (rc : Nat × Nat) : Bool :=
  decide (rc.1 < b.height) && decide (rc.2 < b.width)

def isBlocked (b : Board) (rc : Nat × Nat) : Bool :=
  b.blocked.testBit (cellIdx b rc)

def playerPos (b : Board) (p : Bool) : Option (Nat × Nat) :=
  if p then b.pos1 else b.pos2

def activePlayer (b : Board) : Bool := b.p1ToMove

/-- `Modelled from the spec:` if the player has not yet placed a piece,
legal moves are all unblocked in-bounds cells. -/
def openCells (b : Board) : List (Nat × Nat) :=
  (List.range b.height).flatMap fun r =>
    (List.range b.width).filterMap fun c =>
      if b.blocked.testBit (r * b.width + c) then none else some (r, c)

def queenDirs : List (Int × Int) :=
  [(1, 0), (-1, 0), (0, 1), (0, -1), (1, 1), (1, -1), (-1, 1), (-1, -1)]

/-- `Modelled from the spec:` cells reachable along one queen-move ray:
step repeatedly in direction (dr, dc), collecting in-bounds unblocked
cells, stopping at the first blocked or out-of-bounds cell. -/
def rayCells (b : Board) (r c dr dc : Int) : Nat → List (Nat × Nat)
  | 0 => []
  | fuel + 1 =>
    let r' := r + dr
    let c' := c + dc
    if 0 ≤ r' ∧ r' < (b.height : Int) ∧ 0 ≤ c' ∧ c' < (b.width : Int) then
      if b.blocked.testBit (r'.toNat * b.width + c'.toNat) then []
      else (r'.toNat, c'.toNat) :: rayCells b r' c' dr dc fuel
    else []

/-- `Modelled from the spec:` legal_moves(player) -- all cells reachable
from the position of the player by a single queen-style move landing on an
unblocked in-bounds cell with no blocked cell strictly between; all
unblocked cells if the player is not yet placed. -/
def legalMoves (b : Board) (p : Bool) : List (Nat × Nat) :=
  match playerPos b p with
  | none => openCells b
  | some (r, c) =>
    queenDirs.flatMap fun d => rayCells b (r : Int) (c : Int) d.1 d.2 (b.width + b.height)

/-- `Modelled from the spec:` the successor board of a move -- the position
of the mover updated, the destination cell permanently occupied (its bit
set; the bit of the origin, set when the mover arrived there, persists),
the active player flipped.  The input board is untouched (pure function). -/
def moveBoard (b : Board) (mv : Nat × Nat) : Board :=
  { b with
    blocked := b.blocked ||| (1 <<< cellIdx b mv)
    pos1 := if b.p1ToMove then some mv else b.pos1
    pos2 := if b.p1ToMove then b.pos2 else some mv
    p1ToMove := !b.p1ToMove }

/-- `Modelled from the spec:` apply_move validates the move against the
current legal-move set; `none` models raising InvalidMoveError (never
silently corrected). -/
def applyMove (b : Board) (mv : Nat × Nat) : Option Board :=
  if mv ∈ legalMoves b (activePlayer b) then some (moveBoard b mv) else none

/-- `Modelled from the spec:` is_terminal -- the active player has no
legal moves. -/
def isTerminal (b : Board) : Bool :=
  (legalMoves b (activePlayer b)).isEmpty

/-- Boards reachable from an initial board by legal moves. -/
inductive Reachable : Board → Prop
  | init (w h : Nat) : Reachable (Board.init w h)
  | step {b : Board} {mv : Nat × Nat} {b' : Board} :
      Reachable b → applyMove b mv = some b' → Reachable b'

/-! ### Part I: the search engine (modelled from the spec, 4.2-4.3, 9)

Per spec section 9 the engine is a pair of pure functions of identical
signature, strategy-agnostic over the move enumeration: both are generic
over a successor enumeration `succ` (a fixed move-enumeration order) and
the caller-supplied evaluation function `eval`. -/

structure SearchRes (μ : Type) where
  score : Score
  move : Option μ
  nodes : Nat
deriving Repr

/-- `Modelled from the spec:` result of a search call at depth 0 or at a
terminal board: (evaluate(board), None), one node expanded. -/
def leafRes {σ μ : Type} (eval : σ → Score) (b : σ) : SearchRes μ :=
  ⟨eval b, none, 1⟩

/-- `Modelled from the spec:` first-move-wins selection -- the maximizing
(resp. minimizing) player keeps the first child seen and replaces it only
on a strictly better score. -/
def selBest {μ : Type} (isMax : Bool) : (μ × Score) → List (μ × Score) → μ × Score
  | best, [] => best
  | best, (mv, s) :: rest =>
    selBest isMax (if (if isMax then best.2 < s else s < best.2) then (mv, s) else best) rest

/-- `Modelled from the spec:` one minimax node -- enumerate the children,
recurse on each, select first-wins best; every call counts one node plus
the counts of its children. -/
def mmNode {σ μ : Type} (succ : σ → List (μ × σ)) (eval : σ → Score)
    (recur : Bool → σ → SearchRes μ) (maxP : Bool) (b : σ) : SearchRes μ :=
  match succ b with
  | [] => leafRes eval b
  | ch :: rest =>
    let r0 := recur (!maxP) ch.2
    let rs := rest.map fun p => (p.1, recur (!maxP) p.2)
    let best := selBest maxP (ch.1, r0.score) (rs.map fun p => (p.1, p.2.score))
    ⟨best.2, some best.1, 1 + r0.nodes + (rs.map fun p => p.2.nodes).sum⟩

/-- `Modelled from the spec:` depth-limited minimax, spec section 4.2. -/
def minimax {σ μ : Type} (succ : σ → List (μ × σ)) (eval : σ → Score) :
    Nat → Bool → σ → SearchRes μ :=
  Nat.rec (fun _ b => leafRes eval b) (fun _ ih => mmNode succ eval ih)

/-- `Modelled from the spec:` alpha-beta loop at a maximizing node: after
each child update alpha, stop enumerating the remaining moves once
alpha >= beta; remaining siblings are never expanded. -/
def abGoMax {σ μ : Type} (f : Score → σ → SearchRes μ) (β : Score) :
    μ → Score → Score → Nat → List (μ × σ) → SearchRes μ
  | bm, bs, _, n, [] => ⟨bs, some bm, n⟩
  | bm, bs, a, n, (mv, c) :: rest =>
    let r := f a c
    let bm' := if bs < r.score then mv else bm
    let bs' := if bs < r.score then r.score else bs
    let a' := max a r.score
    let n' := n + r.nodes
    if β ≤ a' then ⟨bs', some bm', n'⟩ else abGoMax f β bm' bs' a' n' rest

/-- `Modelled from the spec:` alpha-beta loop at a minimizing node
(symmetric update to beta, cutoff when beta <= alpha). -/
def abGoMin {σ μ : Type} (f : Score → σ → SearchRes μ) (α : Score) :
    μ → Score → Score → Nat → List (μ × σ) → SearchRes μ
  | bm, bs, _, n, [] => ⟨bs, some bm, n⟩
  | bm, bs, bb, n, (mv, c) :: rest =>
    let r := f bb c
    let bm' := if r.score < bs then mv else bm
    let bs' := if r.score < bs then r.score else bs
    let bb' := min bb r.score
    let n' := n + r.nodes
    if bb' ≤ α then ⟨bs', some bm', n'⟩ else abGoMin f α bm' bs' bb' n' rest

/-- `Modelled from the spec:` one alpha-beta node, spec section 4.3. -/
def abNode {σ μ : Type} (succ : σ → List (μ × σ)) (eval : σ → Score)
    (recur : Bool → Score → Score → σ → SearchRes μ) (maxP : Bool)
    (α β : Score) (b : σ) : SearchRes μ :=
  match succ b with
  | [] => leafRes eval b
  | ch :: rest =>
    if maxP then
      let r0 := recur false α β ch.2
      let a0 := max α r0.score
      if β ≤ a0 then ⟨r0.score, some ch.1, 1 + r0.nodes⟩
      else abGoMax (fun a c => recur false a β c) β ch.1 r0.score a0 (1 + r0.nodes) rest
    else
      let r0 := recur true α β ch.2
      let b0 := min β r0.score
      if b0 ≤ α then ⟨r0.score, some ch.1, 1 + r0.nodes⟩
      else abGoMin (fun bb c => recur true α bb c) α ch.1 r0.score b0 (1 + r0.nodes) rest

/-- `Modelled from the spec:` depth-limited alpha-beta, spec section 4.3:
same contract and return shape as minimax, with bounds alpha and beta. -/
def alphabeta {σ μ : Type} (succ : σ → List (μ × σ)) (eval : σ → Score) :
    Nat → Bool → Score → Score → σ → SearchRes μ :=
  Nat.rec (fun _ _ _ b => leafRes eval b) (fun _ ih => abNode succ eval ih)

/-- Minimax entry point: the agent maximizes at the root. -/
def minimaxSearch {σ μ : Type} (succ : σ → List (μ × σ)) (eval : σ → Score)
    (d : Nat) (b : σ) : SearchRes μ :=
  minimax succ eval d true b

/-- Alpha-beta entry point: bounds initialized to -infinity / +infinity
at the root (spec section 4.3). -/
def alphabetaSearch {σ μ : Type} (succ : σ → List (μ × σ)) (eval : σ → Score)
    (d : Nat) (b : σ) : SearchRes μ :=
  alphabeta succ eval d true ⊥ ⊤ b

/-- The successor enumeration of the game, in the fixed order of the model. -/
def succBoard (b : Board) : List ((Nat × Nat) × Board) :=
  (legalMoves b (activePlayer b)).map fun mv => (mv, moveBoard b mv)

/-- `Modelled from the spec:` the trivial reference evaluation of section
8 -- count of the legal moves of the agent (player 1) minus those of the
opponent. -/
def evalC1 (b : Board) : Score :=
  intScore (((legalMoves b true).length : ℤ) - ((legalMoves b false).length : ℤ))

/-- The node-expansion count of the section-8 reference scenario: depth-2
minimax from the fresh default 7x7 board. -/
def expandedDepth2 : Nat :=
  (minimaxSearch succBoard evalC1 2 (Board.init 7 7)).nodes

/-- `Modelled from the spec:` the time-bounded driver, spec section 4.4.
The wall-clock budget cannot be embedded shallowly; it is abstracted by
`completedDepths`, the number of depths the budget lets the driver finish
(0 models time_left already at or below the safety margin at entry).
With no legal move the driver reports the forfeit sentinel `none`
rather than raising; with a legal move but no completed depth it falls
back to the first legal move. -/
def getMove (eval : Board → Score) (b : Board) (completedDepths : Nat) :
    Option (Nat × Nat) :=
  match legalMoves b (activePlayer b) with
  | [] => none
  | m :: _ =>
    if completedDepths = 0 then some m
    else
      match (minimaxSearch succBoard eval completedDepths b).move with
      | some mv => some mv
      | none => some m

/-- Running maximum of the true child values of an enumeration (used to
state the alpha-beta/minimax bound lemmas). -/
def glMax {σ μ : Type} (g : σ → Score) (l : List (μ × σ)) : Score :=
  l.foldl (fun s p => max s (g p.2)) ⊥

/-- Running minimum of the true child values of an enumeration. -/
def glMin {σ μ : Type} (g : σ → Score) (l : List (μ × σ)) : Score :=
  l.foldl (fun s p => min s (g p.2)) ⊤

/-! ### Part II: the recognizer (src/AIND-Recognizer/my_recognizer.py)

A trained word model is embedded as its scoring behaviour: `none` models
model.score(X, lengths) raising; `some s` a returned log-likelihood.
float(-Inf) is the bottom of `WithBot ℤ`. -/

abbrev WordModel (Item : Type) := Item → Option ℤ

/-- The value stored in the probability dict for one model: the
log-likelihood on success, -Inf when model.score raised. -/
def scoreVal (r : Option ℤ) : WithBot ℤ :=
  match r with
  | some s => (s : WithBot ℤ)
  | none => ⊥

/-- The inner loop of recognize over the models dict for one test item:
threads best_score (init -Inf) and best_guess (init None), recording the
entry of every model in the probability dict in iteration order, updating
the best on a strictly greater score.  Returns (probability dict as an
association list, best_score, best_guess). -/
def scoreModels {Item : Type} (item : Item) :
    List (String × WordModel Item) → WithBot ℤ → Option String →
    List (String × WithBot ℤ) × WithBot ℤ × Option String
  | [], best, guess => ([], best, guess)
  | (w, m) :: rest, best, guess =>
    let sc := scoreVal (m item)
    let best' := if best < sc then sc else best
    let guess' := if best < sc then some w else guess
    let out := scoreModels item rest best' guess'
    ((w, sc) :: out.1, out.2)

/-- recognize(models, test_set): one probability dict and one guess per
test item, appended in the iteration order of
test_set.get_all_Xlengths(). -/
def recognize {Item : Type} (models : List (String × WordModel Item)) :
    List Item → List (List (String × WithBot ℤ)) × List (Option String)
  | [] => ([], [])
  | t :: ts =>
    let r := scoreModels t models ⊥ none
    let rest := recognize models ts
    (r.1 :: rest.1, r.2.2 :: rest.2)

/-! ### Part II: the model selectors (src/AIND-Recognizer/my_model_selectors.py)

A trained GaussianHMM is embedded by the attributes the selectors read:
the parameter-count sizes used by BIC and its scoring behaviour (`none`
models hmm_model.score raising).  `baseModel n X` embeds
ModelSelector.base_model(n) fitting on the current self.X (it returns
None on failure); the Ns every call of it receives are collected so that
the claims about which component counts are ever trained can be stated. -/

structure HMM (D : Type) where
  startprobSize : ℕ
  transmatSize : ℕ
  meansSize : ℕ
  covarsDiagSize : ℕ
  score : D → Option ℚ

/-- Sum of hmm_model.score over all words of self.hwords; `none` as soon
as any score call raises (aborting the inner loop of SelectorDIC). -/
def sumScores {D : Type} (m : HMM D) : List (String × D) → Option ℚ
  | [] => some 0
  | (_, d) :: rest =>
    match m.score d, sumScores m rest with
    | some s, some acc => some (s + acc)
    | _, _ => none

/-- The DIC score of one candidate: log P(X(i)) minus the average of the
anti-likelihoods; -Inf (bottom) whenever the model is None, any score
call raises, or the word list is empty (ZeroDivisionError). -/
def dicScore {D : Type} (baseM : Option (HMM D)) (X : D)
    (hwords : List (String × D)) : WithBot ℚ :=
  match baseM with
  | none => ⊥
  | some m =>
    match m.score X with
    | none => ⊥
    | some logL =>
      match sumScores m hwords with
      | none => ⊥
      | some al =>
        if hwords.length = 0 then ⊥
        else ((logL - al / (hwords.length : ℚ) : ℚ) : WithBot ℚ)

/-- The loop of SelectorDIC.select over range(min_n_components,
max_n_components), also collecting every n passed to base_model. -/
def selectDICGo {D : Type} (baseModel : ℕ → D → Option (HMM D)) (X : D)
    (hwords : List (String × D)) :
    List ℕ → WithBot ℚ → Option (HMM D) → List ℕ → Option (HMM D) × List ℕ
  | [], _, bestM, trained => (bestM, trained)
  | n :: ns, best, bestM, trained =>
    let hm := baseModel n X
    let sc := dicScore hm X hwords
    if best < sc then selectDICGo baseModel X hwords ns sc hm (trained ++ [n])
    else selectDICGo baseModel X hwords ns best bestM (trained ++ [n])

/-- SelectorDIC.select. -/
def selectDIC {D : Type} (baseModel : ℕ → D → Option (HMM D)) (X : D)
    (hwords : List (String × D)) (minN maxN : ℕ) : Option (HMM D) × List ℕ :=
  selectDICGo baseModel X hwords (List.range' minN (maxN - minN)) ⊥ none []

/-- The BIC score of one candidate: -2 logL + p log N; +Inf (top) when
the model is None or scoring raises.  `logN` stands for the opaque real
math.log(len(self.sequences)). -/
def bicScore {D : Type} (baseM : Option (HMM D)) (X : D) (logN : ℚ) : WithTop ℚ :=
  match baseM with
  | none => ⊤
  | some m =>
    match m.score X with
    | none => ⊤
    | some logL =>
      let p : ℚ := ((m.startprobSize : ℚ) - 1) + ((m.transmatSize : ℚ) - 1) +
        (m.meansSize : ℚ) + (m.covarsDiagSize : ℚ)
      ((-2 * logL + p * logN : ℚ) : WithTop ℚ)

/-- The loop of SelectorBIC.select (minimizing, best initialized to +Inf). -/
def selectBICGo {D : Type} (baseModel : ℕ → D → Option (HMM D)) (X : D)
    (logN : ℚ) :
    List ℕ → WithTop ℚ → Option (HMM D) → List ℕ → Option (HMM D) × List ℕ
  | [], _, bestM, trained => (bestM, trained)
  | n :: ns, best, bestM, trained =>
    let hm := baseModel n X
    let sc := bicScore hm X logN
    if sc < best then selectBICGo baseModel X logN ns sc hm (trained ++ [n])
    else selectBICGo baseModel X logN ns best bestM (trained ++ [n])

/-- SelectorBIC.select. -/
def selectBIC {D : Type} (baseModel : ℕ → D → Option (HMM D)) (X : D)
    (logN : ℚ) (minN maxN : ℕ) : Option (HMM D) × List ℕ :=
  selectBICGo baseModel X logN (List.range' minN (maxN - minN)) ⊤ none []

/-- Sum of the scores of a fold; `none` once the list contains -Inf. -/
def sumW : List (WithBot ℚ) → Option ℚ
  | [] => some 0
  | x :: rest =>
    match x, sumW rest with
    | (s : ℚ), some acc => some (s + acc)
    | _, _ => none

/-- np.mean over the fold scores: -Inf absorbs; the empty list gives NaN
in numpy, which loses every comparison exactly as bottom does here. -/
def meanW (l : List (WithBot ℚ)) : WithBot ℚ :=
  if l.isEmpty then ⊥
  else
    match sumW l with
    | none => ⊥
    | some s => ((s / (l.length : ℚ) : ℚ) : WithBot ℚ)

/-- One SelectorCV fold iteration for candidate n (the try/except body):
self.X is reassigned to the combined training split, base_model is fitted
on it; if the model is None or its score call raises, the except branch
fits base_model a second time and records -Inf.  Returns the recorded
score, the model left in hmm_model, and the ns passed to base_model. -/
def cvStep {D : Type} (baseModel : ℕ → D → Option (HMM D))
    (combine : List ℕ → D) (n : ℕ) (tr te : List ℕ) :
    WithBot ℚ × Option (HMM D) × List ℕ :=
  match baseModel n (combine tr) with
  | some m =>
    match m.score (combine te) with
    | some logL => ((logL : WithBot ℚ), some m, [n])
    | none => (⊥, baseModel n (combine tr), [n, n])
  | none => (⊥, baseModel n (combine tr), [n, n])

/-- The fold loop of SelectorCV.select for one candidate n: iterates `cvStep`
over the folds, threading the mutated self.X (each fold leaves self.X at
its combined training split).  Returns (scores, last fitted model, final
self.X, ns trained). -/
def cvFolds {D : Type} (baseModel : ℕ → D → Option (HMM D))
    (combine : List ℕ → D) (n : ℕ) :
    List (List ℕ × List ℕ) → D → Option (HMM D) →
    List (WithBot ℚ) × Option (HMM D) × D × List ℕ
  | [], curX, hm => ([], hm, curX, [])
  | (tr, te) :: rest, _, _ =>
    let st := cvStep baseModel combine n tr te
    let r := cvFolds baseModel combine n rest (combine tr) st.2.1
    (st.1 :: r.1, r.2.1, r.2.2.1, st.2.2 ++ r.2.2.2)

/-- The loop of SelectorCV.select over the candidate ns, threading the mutated
self.X. -/
def selectCVGo {D : Type} (baseModel : ℕ → D → Option (HMM D))
    (combine : List ℕ → D) (splits : List (List ℕ × List ℕ)) :
    List ℕ → D → WithBot ℚ → Option (HMM D) → List ℕ →
    Option (HMM D) × D × List ℕ
  | [], curX, _, bestM, trained => (bestM, curX, trained)
  | n :: ns, curX, best, bestM, trained =>
    let r := cvFolds baseModel combine n splits curX none
    let logL := meanW r.1
    if best < logL then
      selectCVGo baseModel combine splits ns r.2.2.1 logL r.2.1 (trained ++ r.2.2.2)
    else
      selectCVGo baseModel combine splits ns r.2.2.1 best bestM (trained ++ r.2.2.2)

/-- SelectorCV.select.  `splits` embeds KFold(n_splits=3).split(sequences)
and `seqLen` is len(self.sequences); when seqLen < 3 the first iteration
request of the generator raises ValueError, the outer except swallows it
before any candidate is trained, and the n_constant fallback runs (on the
untouched self.X).  The fallback also runs when no candidate ever scored. -/
def selectCV {D : Type} (baseModel : ℕ → D → Option (HMM D))
    (combine : List ℕ → D) (splits : List (List ℕ × List ℕ)) (seqLen : ℕ)
    (X0 : D) (minN maxN nConst : ℕ) : Option (HMM D) × List ℕ :=
  if seqLen < 3 then (baseModel nConst X0, [nConst])
  else
    let r := selectCVGo baseModel combine splits
      (List.range' minN (maxN - minN)) X0 ⊥ none []
    match r.1 with
    | none => (baseModel nConst r.2.1, r.2.2 ++ [nConst])
    | some m => (some m, r.2.2)

/-! ## Theorems -/

section SearchLemmas

variable {σ μ : Type} (succ : σ → List (μ × σ)) (eval : σ → Score)

theorem minimax_zero (maxP : Bool) (b : σ) :
    minimax succ eval 0 maxP b = leafRes eval b := rfl

theorem minimax_step (d : Nat) :
    minimax succ eval (d + 1) = mmNode succ eval (minimax succ eval d) := rfl

theorem alphabeta_zero (maxP : Bool) (α β : Score) (b : σ) :
    alphabeta succ eval 0 maxP α β b = leafRes eval b := rfl

theorem alphabeta_step (d : Nat) :
    alphabeta succ eval (d + 1) = abNode succ eval (alphabeta succ eval d) := rfl

theorem selBest_cons (isMax : Bool) (p : μ × Score) (mv : μ) (s : Score)
    (rest : List (μ × Score)) :
    selBest isMax p ((mv, s) :: rest) =
      selBest isMax (if (if isMax then p.2 < s else s < p.2) then (mv, s) else p) rest := rfl

theorem selBest_true_ge (l : List (μ × Score)) :
    ∀ p : μ × Score, p.2 ≤ (selBest true p l).2 := by
  induction l with
  | nil => intro p; exact le_refl _
  | cons q rest ih =>
    intro p
    obtain ⟨mv, s⟩ := q
    rw [selBest_cons]
    by_cases hps : p.2 < s
    · simp only [if_pos, hps, if_true]
      exact le_trans (le_of_lt hps) (ih (mv, s))
    · simp only [hps, if_false]
      exact ih p

theorem selBest_false_le (l : List (μ × Score)) :
    ∀ p : μ × Score, (selBest false p l).2 ≤ p.2 := by
  induction l with
  | nil => intro p; exact le_refl _
  | cons q rest ih =>
    intro p
    obtain ⟨mv, s⟩ := q
    rw [selBest_cons]
    by_cases hps : s < p.2
    · simp only [hps, if_true]
      exact le_trans (ih (mv, s)) (le_of_lt hps)
    · simp only [hps, if_false]
      exact ih p

theorem selBest_true_top (l : List (μ × Score)) (bm : μ) :
    selBest true (bm, (⊤ : Score)) l = (bm, (⊤ : Score)) := by
  induction l with
  | nil => rfl
  | cons q rest ih =>
    obtain ⟨mv, s⟩ := q
    rw [selBest_cons]
    simp only [not_top_lt, if_false]
    exact ih

theorem selBest_false_bot (l : List (μ × Score)) (bm : μ) :
    selBest false (bm, (⊥ : Score)) l = (bm, (⊥ : Score)) := by
  induction l with
  | nil => rfl
  | cons q rest ih =>
    obtain ⟨mv, s⟩ := q
    rw [selBest_cons]
    simp only [not_lt_bot, if_false]
    exact ih

theorem foldl_max_eq (g : σ → Score) :
    ∀ (l : List (μ × σ)) (s : Score),
      l.foldl (fun a p => max a (g p.2)) s = max s (glMax g l) := by
  intro l
  induction l with
  | nil => intro s; simp [glMax]
  | cons q rest ih =>
    intro s
    have hcons : glMax g (q :: rest) = max (g q.2) (glMax g rest) := by
      simp only [glMax, List.foldl_cons]
      rw [show ((⊥ : Score) ⊔ g q.2) = max ⊥ (g q.2) from rfl]
      rw [show rest.foldl (fun a p => max a (g p.2)) (max ⊥ (g q.2)) =
        max (max ⊥ (g q.2)) (glMax g rest) from ih _]
      rw [max_eq_right (bot_le : (⊥ : Score) ≤ g q.2)]
      rfl
    rw [List.foldl_cons, ih (max s (g q.2)), hcons, max_assoc]

theorem glMax_nil (g : σ → Score) : glMax g ([] : List (μ × σ)) = ⊥ := rfl

theorem glMax_cons (g : σ → Score) (q : μ × σ) (rest : List (μ × σ)) :
    glMax g (q :: rest) = max (g q.2) (glMax g rest) := by
  simp only [glMax, List.foldl_cons]
  rw [show rest.foldl (fun a p => max a (g p.2)) (max ⊥ (g q.2)) =
    max (max ⊥ (g q.2)) (glMax g rest) from foldl_max_eq g rest _]
  rw [max_eq_right (bot_le : (⊥ : Score) ≤ g q.2)]
  rfl

theorem foldl_min_eq (g : σ → Score) :
    ∀ (l : List (μ × σ)) (s : Score),
      l.foldl (fun a p => min a (g p.2)) s = min s (glMin g l) := by
  intro l
  induction l with
  | nil => intro s; simp [glMin]
  | cons q rest ih =>
    intro s
    have hcons : glMin g (q :: rest) = min (g q.2) (glMin g rest) := by
      simp only [glMin, List.foldl_cons]
      rw [show rest.foldl (fun a p => min a (g p.2)) (min ⊤ (g q.2)) =
        min (min ⊤ (g q.2)) (glMin g rest) from ih _]
      rw [min_eq_right (le_top : g q.2 ≤ (⊤ : Score))]
      rfl
    rw [List.foldl_cons, ih (min s (g q.2)), hcons, min_assoc]

theorem glMin_nil (g : σ → Score) : glMin g ([] : List (μ × σ)) = ⊤ := rfl

theorem glMin_cons (g : σ → Score) (q : μ × σ) (rest : List (μ × σ)) :
    glMin g (q :: rest) = min (g q.2) (glMin g rest) := by
  simp only [glMin, List.foldl_cons]
  rw [show rest.foldl (fun a p => min a (g p.2)) (min ⊤ (g q.2)) =
    min (min ⊤ (g q.2)) (glMin g rest) from foldl_min_eq g rest _]
  rw [min_eq_right (le_top : g q.2 ≤ (⊤ : Score))]
  rfl

theorem selBest_true_score (l : List (μ × Score)) :
    ∀ p : μ × Score, (selBest true p l).2 = l.foldl (fun s q => max s q.2) p.2 := by
  induction l with
  | nil => intro p; rfl
  | cons q rest ih =>
    intro p
    obtain ⟨mv, s⟩ := q
    rw [selBest_cons, List.foldl_cons]
    have hsel : (if (if true then p.2 < s else s < p.2) then (mv, s) else p).2 = max p.2 s := by
      by_cases hps : p.2 < s
      · simp [hps, max_eq_right (le_of_lt hps)]
      · simp [hps, max_eq_left (not_lt.mp hps)]
    rw [ih, hsel]

theorem selBest_false_score (l : List (μ × Score)) :
    ∀ p : μ × Score, (selBest false p l).2 = l.foldl (fun s q => min s q.2) p.2 := by
  induction l with
  | nil => intro p; rfl
  | cons q rest ih =>
    intro p
    obtain ⟨mv, s⟩ := q
    rw [selBest_cons, List.foldl_cons]
    have hsel : (if (if false then p.2 < s else s < p.2) then (mv, s) else p).2 = min p.2 s := by
      by_cases hps : s < p.2
      · simp [hps, min_eq_right (le_of_lt hps)]
      · simp [hps, min_eq_left (not_lt.mp hps)]
    rw [ih, hsel]

theorem abGoMax_nil (f : Score → σ → SearchRes μ) (β : Score) (bm : μ)
    (bs a : Score) (n : Nat) :
    abGoMax f β bm bs a n [] = ⟨bs, some bm, n⟩ := rfl

theorem abGoMax_cons (f : Score → σ → SearchRes μ) (β : Score) (bm : μ)
    (bs a : Score) (n : Nat) (mv : μ) (c : σ) (rest : List (μ × σ)) :
    abGoMax f β bm bs a n ((mv, c) :: rest) =
      if β ≤ max a (f a c).score then
        ⟨if bs < (f a c).score then (f a c).score else bs,
         some (if bs < (f a c).score then mv else bm), n + (f a c).nodes⟩
      else
        abGoMax f β (if bs < (f a c).score then mv else bm)
          (if bs < (f a c).score then (f a c).score else bs)
          (max a (f a c).score) (n + (f a c).nodes) rest := rfl

theorem abGoMin_nil (f : Score → σ → SearchRes μ) (α : Score) (bm : μ)
    (bs bb : Score) (n : Nat) :
    abGoMin f α bm bs bb n [] = ⟨bs, some bm, n⟩ := rfl

theorem abGoMin_cons (f : Score → σ → SearchRes μ) (α : Score) (bm : μ)
    (bs bb : Score) (n : Nat) (mv : μ) (c : σ) (rest : List (μ × σ)) :
    abGoMin f α bm bs bb n ((mv, c) :: rest) =
      if min bb (f bb c).score ≤ α then
        ⟨if (f bb c).score < bs then (f bb c).score else bs,
         some (if (f bb c).score < bs then mv else bm), n + (f bb c).nodes⟩
      else
        abGoMin f α (if (f bb c).score < bs then mv else bm)
          (if (f bb c).score < bs then (f bb c).score else bs)
          (min bb (f bb c).score) (n + (f bb c).nodes) rest := rfl

/-- Loop invariant of the maximizing alpha-beta loop: relative to the
true child values `g`, the final best score is fail-soft correct. -/
theorem abGoMax_bounds {f : Score → σ → SearchRes μ} {g : σ → Score} {β : Score}
    (Hf : ∀ a c, a < β →
      (((f a c).score ≤ a → g c ≤ (f a c).score) ∧
       (β ≤ (f a c).score → (f a c).score ≤ g c) ∧
       (a < (f a c).score → (f a c).score < β → (f a c).score = g c))) :
    ∀ (l : List (μ × σ)) (bm : μ) (bs a : Score) (n : Nat), bs ≤ a → a < β →
      bs ≤ (abGoMax f β bm bs a n l).score ∧
      (β ≤ (abGoMax f β bm bs a n l).score →
        (abGoMax f β bm bs a n l).score ≤ glMax g l) ∧
      ((abGoMax f β bm bs a n l).score < β →
        glMax g l ≤ (abGoMax f β bm bs a n l).score) ∧
      ((abGoMax f β bm bs a n l).score < β →
        (abGoMax f β bm bs a n l).score ≤ max a (glMax g l)) := by
  intro l
  induction l with
  | nil =>
    intro bm bs a n hba hab
    rw [abGoMax_nil]
    refine ⟨le_refl _, ?_, ?_, ?_⟩
    · intro hv
      exact absurd (le_trans hv hba) (not_le.mpr hab)
    · intro _
      exact bot_le
    · intro _
      exact le_trans hba (le_max_left _ _)
  | cons q rest ih =>
    intro bm bs a n hba hab
    obtain ⟨mv, c⟩ := q
    rw [abGoMax_cons, glMax_cons]
    by_cases hcut : β ≤ max a (f a c).score
    · rw [if_pos hcut]
      have hbv : β ≤ (f a c).score := by
        rcases le_max_iff.mp hcut with h | h
        · exact absurd h (not_le.mpr hab)
        · exact h
      have hbsv : bs < (f a c).score := lt_of_le_of_lt hba (lt_of_lt_of_le hab hbv)
      rw [if_pos hbsv]
      refine ⟨le_of_lt hbsv, ?_, ?_, ?_⟩
      · intro _
        exact le_trans ((Hf a c hab).2.1 hbv) (le_max_left _ _)
      · intro hlt
        exact absurd hbv (not_le.mpr hlt)
      · intro hlt
        exact absurd hbv (not_le.mpr hlt)
    · rw [if_neg hcut]
      have hab' : max a (f a c).score < β := not_le.mp hcut
      have hvβ : (f a c).score < β := lt_of_le_of_lt (le_max_right _ _) hab'
      have hba' : (if bs < (f a c).score then (f a c).score else bs) ≤ max a (f a c).score := by
        by_cases hb : bs < (f a c).score
        · rw [if_pos hb]; exact le_max_right _ _
        · rw [if_neg hb]; exact le_trans hba (le_max_left _ _)
      obtain ⟨ihA, ihB, ihD, ihE⟩ :=
        ih (if bs < (f a c).score then mv else bm)
          (if bs < (f a c).score then (f a c).score else bs)
          (max a (f a c).score) (n + (f a c).nodes) hba' hab'
      have hbs' : bs ≤ (if bs < (f a c).score then (f a c).score else bs) := by
        by_cases hb : bs < (f a c).score
        · rw [if_pos hb]; exact le_of_lt hb
        · rw [if_neg hb]
      have hvbs' : (f a c).score ≤ (if bs < (f a c).score then (f a c).score else bs) := by
        by_cases hb : bs < (f a c).score
        · rw [if_pos hb]
        · rw [if_neg hb]; exact not_lt.mp hb
      refine ⟨le_trans hbs' ihA, ?_, ?_, ?_⟩
      · intro hv
        exact le_trans (ihB hv) (le_max_right _ _)
      · intro hv
        have hgc : g c ≤ (abGoMax f β (if bs < (f a c).score then mv else bm)
            (if bs < (f a c).score then (f a c).score else bs)
            (max a (f a c).score) (n + (f a c).nodes) rest).score := by
          by_cases hva : (f a c).score ≤ a
          · exact le_trans ((Hf a c hab).1 hva) (le_trans hvbs' ihA)
          · have heq := (Hf a c hab).2.2 (not_le.mp hva) hvβ
            rw [← heq]
            exact le_trans hvbs' ihA
        exact max_le hgc (ihD hv)
      · intro hv
        have := ihE hv
        rcases le_max_iff.mp this with h | h
        · rcases le_max_iff.mp h with h' | h'
          · exact le_trans h' (le_max_left _ _)
          · by_cases hva : (f a c).score ≤ a
            · exact le_trans (le_trans h' hva) (le_max_left _ _)
            · have heq := (Hf a c hab).2.2 (not_le.mp hva) hvβ
              have hvg : (abGoMax f β (if bs < (f a c).score then mv else bm)
                  (if bs < (f a c).score then (f a c).score else bs)
                  (max a (f a c).score) (n + (f a c).nodes) rest).score ≤ g c :=
                le_trans h' (le_of_eq heq)
              exact le_trans hvg (le_trans (le_max_left _ _) (le_max_right _ _))
        · exact le_trans (le_trans h (le_max_right _ _)) (le_max_right _ _)

/-- Loop invariant of the minimizing alpha-beta loop (mirror image). -/
theorem abGoMin_bounds {f : Score → σ → SearchRes μ} {g : σ → Score} {α : Score}
    (Hf : ∀ bb c, α < bb →
      (((f bb c).score ≤ α → g c ≤ (f bb c).score) ∧
       (bb ≤ (f bb c).score → (f bb c).score ≤ g c) ∧
       (α < (f bb c).score → (f bb c).score < bb → (f bb c).score = g c))) :
    ∀ (l : List (μ × σ)) (bm : μ) (bs bb : Score) (n : Nat), bb ≤ bs → α < bb →
      (abGoMin f α bm bs bb n l).score ≤ bs ∧
      ((abGoMin f α bm bs bb n l).score ≤ α →
        glMin g l ≤ (abGoMin f α bm bs bb n l).score) ∧
      (α < (abGoMin f α bm bs bb n l).score →
        (abGoMin f α bm bs bb n l).score ≤ glMin g l) ∧
      (α < (abGoMin f α bm bs bb n l).score →
        min bb (glMin g l) ≤ (abGoMin f α bm bs bb n l).score) := by
  intro l
  induction l with
  | nil =>
    intro bm bs bb n hbb hab
    rw [abGoMin_nil]
    refine ⟨le_refl _, ?_, ?_, ?_⟩
    · intro hv
      exact absurd (le_trans hbb hv) (not_le.mpr hab)
    · intro _
      exact le_top
    · intro _
      exact le_trans (min_le_left _ _) hbb
  | cons q rest ih =>
    intro bm bs bb n hbb hab
    obtain ⟨mv, c⟩ := q
    rw [abGoMin_cons, glMin_cons]
    by_cases hcut : min bb (f bb c).score ≤ α
    · rw [if_pos hcut]
      have hvα : (f bb c).score ≤ α := by
        rcases min_le_iff.mp hcut with h | h
        · exact absurd h (not_le.mpr hab)
        · exact h
      have hvbs : (f bb c).score < bs := lt_of_le_of_lt hvα (lt_of_lt_of_le hab hbb)
      rw [if_pos hvbs]
      refine ⟨le_of_lt hvbs, ?_, ?_, ?_⟩
      · intro _
        exact le_trans (min_le_left _ _) ((Hf bb c hab).1 hvα)
      · intro hlt
        exact absurd hvα (not_le.mpr hlt)
      · intro hlt
        exact absurd hvα (not_le.mpr hlt)
    · rw [if_neg hcut]
      have hab' : α < min bb (f bb c).score := not_le.mp hcut
      have hαv : α < (f bb c).score := lt_of_lt_of_le hab' (min_le_right _ _)
      have hbb' : min bb (f bb c).score ≤ (if (f bb c).score < bs then (f bb c).score else bs) := by
        by_cases hb : (f bb c).score < bs
        · rw [if_pos hb]; exact min_le_right _ _
        · rw [if_neg hb]; exact le_trans (min_le_left _ _) hbb
      obtain ⟨ihA, ihB, ihD, ihE⟩ :=
        ih (if (f bb c).score < bs then mv else bm)
          (if (f bb c).score < bs then (f bb c).score else bs)
          (min bb (f bb c).score) (n + (f bb c).nodes) hbb' hab'
      have hbs' : (if (f bb c).score < bs then (f bb c).score else bs) ≤ bs := by
        by_cases hb : (f bb c).score < bs
        · rw [if_pos hb]; exact le_of_lt hb
        · rw [if_neg hb]
      have hvbs' : (if (f bb c).score < bs then (f bb c).score else bs) ≤ (f bb c).score := by
        by_cases hb : (f bb c).score < bs
        · rw [if_pos hb]
        · rw [if_neg hb]; exact not_lt.mp hb
      refine ⟨le_trans ihA hbs', ?_, ?_, ?_⟩
      · intro hv
        exact le_trans (min_le_right _ _) (ihB hv)
      · intro hv
        have hgc : (abGoMin f α (if (f bb c).score < bs then mv else bm)
            (if (f bb c).score < bs then (f bb c).score else bs)
            (min bb (f bb c).score) (n + (f bb c).nodes) rest).score ≤ g c := by
          by_cases hva : bb ≤ (f bb c).score
          · exact le_trans (le_trans ihA hvbs') ((Hf bb c hab).2.1 hva)
          · have heq := (Hf bb c hab).2.2 hαv (not_le.mp hva)
            rw [← heq]
            exact le_trans ihA hvbs'
        exact le_min hgc (ihD hv)
      · intro hv
        have := ihE hv
        rcases min_le_iff.mp this with h | h
        · rcases min_le_iff.mp h with h' | h'
          · exact le_trans (min_le_left _ _) h'
          · by_cases hva : bb ≤ (f bb c).score
            · exact le_trans (min_le_left _ _) (le_trans hva h')
            · have heq := (Hf bb c hab).2.2 hαv (not_le.mp hva)
              have hgc : g c ≤ (abGoMin f α (if (f bb c).score < bs then mv else bm)
                  (if (f bb c).score < bs then (f bb c).score else bs)
                  (min bb (f bb c).score) (n + (f bb c).nodes) rest).score :=
                le_trans (le_of_eq heq.symm) h'
              exact le_trans (le_trans (min_le_right _ _) (min_le_left _ _)) hgc
        · exact le_trans (min_le_right _ _) (le_trans (min_le_right _ _) h)

theorem minimax_nil_succ (d : Nat) (maxP : Bool) (b : σ) (h : succ b = []) :
    minimax succ eval (d + 1) maxP b = leafRes eval b := by
  rw [minimax_step]
  simp only [mmNode, h]

theorem minimax_cons_parts (d : Nat) (maxP : Bool) (b : σ) (ch : μ × σ)
    (rest : List (μ × σ)) (h : succ b = ch :: rest) :
    minimax succ eval (d + 1) maxP b =
      ⟨(selBest maxP (ch.1, (minimax succ eval d (!maxP) ch.2).score)
          (rest.map fun p => (p.1, (minimax succ eval d (!maxP) p.2).score))).2,
       some (selBest maxP (ch.1, (minimax succ eval d (!maxP) ch.2).score)
          (rest.map fun p => (p.1, (minimax succ eval d (!maxP) p.2).score))).1,
       1 + (minimax succ eval d (!maxP) ch.2).nodes +
         (rest.map fun p => (minimax succ eval d (!maxP) p.2).nodes).sum⟩ := by
  rw [minimax_step]
  simp only [mmNode, h, List.map_map]
  rfl

theorem minimax_score_cons_true (d : Nat) (b : σ) (ch : μ × σ)
    (rest : List (μ × σ)) (h : succ b = ch :: rest) :
    (minimax succ eval (d + 1) true b).score =
      max ((minimax succ eval d false ch.2).score)
        (glMax (fun c => (minimax succ eval d false c).score) rest) := by
  rw [minimax_cons_parts succ eval d true b ch rest h]
  show (selBest true _ _).2 = _
  rw [selBest_true_score, List.foldl_map]
  exact foldl_max_eq (fun c => (minimax succ eval d false c).score) rest _

theorem minimax_score_cons_false (d : Nat) (b : σ) (ch : μ × σ)
    (rest : List (μ × σ)) (h : succ b = ch :: rest) :
    (minimax succ eval (d + 1) false b).score =
      min ((minimax succ eval d true ch.2).score)
        (glMin (fun c => (minimax succ eval d true c).score) rest) := by
  rw [minimax_cons_parts succ eval d false b ch rest h]
  show (selBest false _ _).2 = _
  rw [selBest_false_score, List.foldl_map]
  exact foldl_min_eq (fun c => (minimax succ eval d true c).score) rest _

theorem alphabeta_nil_succ (d : Nat) (maxP : Bool) (α β : Score) (b : σ)
    (h : succ b = []) :
    alphabeta succ eval (d + 1) maxP α β b = leafRes eval b := by
  rw [alphabeta_step]
  simp only [abNode, h]

theorem alphabeta_cons_true (d : Nat) (α β : Score) (b : σ) (ch : μ × σ)
    (rest : List (μ × σ)) (h : succ b = ch :: rest) :
    alphabeta succ eval (d + 1) true α β b =
      if β ≤ max α (alphabeta succ eval d false α β ch.2).score then
        ⟨(alphabeta succ eval d false α β ch.2).score, some ch.1,
         1 + (alphabeta succ eval d false α β ch.2).nodes⟩
      else
        abGoMax (fun a c => alphabeta succ eval d false a β c) β ch.1
          ((alphabeta succ eval d false α β ch.2).score)
          (max α (alphabeta succ eval d false α β ch.2).score)
          (1 + (alphabeta succ eval d false α β ch.2).nodes) rest := by
  rw [alphabeta_step]
  simp only [abNode, h, if_true]

theorem alphabeta_cons_false (d : Nat) (α β : Score) (b : σ) (ch : μ × σ)
    (rest : List (μ × σ)) (h : succ b = ch :: rest) :
    alphabeta succ eval (d + 1) false α β b =
      if min β (alphabeta succ eval d true α β ch.2).score ≤ α then
        ⟨(alphabeta succ eval d true α β ch.2).score, some ch.1,
         1 + (alphabeta succ eval d true α β ch.2).nodes⟩
      else
        abGoMin (fun bb c => alphabeta succ eval d true α bb c) α ch.1
          ((alphabeta succ eval d true α β ch.2).score)
          (min β (alphabeta succ eval d true α β ch.2).score)
          (1 + (alphabeta succ eval d true α β ch.2).nodes) rest := by
  rw [alphabeta_step]
  simp only [abNode, h, Bool.false_eq_true, if_false]

/-- Fail-soft correctness of alpha-beta relative to minimax: within the
window the scores agree; outside it the alpha-beta score bounds the
minimax score. -/
theorem alphabeta_bounds :
    ∀ (d : Nat) (maxP : Bool) (b : σ) (α β : Score), α < β →
      ((alphabeta succ eval d maxP α β b).score ≤ α →
        (minimax succ eval d maxP b).score ≤ (alphabeta succ eval d maxP α β b).score) ∧
      (β ≤ (alphabeta succ eval d maxP α β b).score →
        (alphabeta succ eval d maxP α β b).score ≤ (minimax succ eval d maxP b).score) ∧
      (α < (alphabeta succ eval d maxP α β b).score →
        (alphabeta succ eval d maxP α β b).score < β →
        (alphabeta succ eval d maxP α β b).score = (minimax succ eval d maxP b).score) := by
  intro d
  induction d with
  | zero =>
    intro maxP b α β _
    exact ⟨fun _ => le_refl _, fun _ => le_refl _, fun _ _ => rfl⟩
  | succ d ih =>
    intro maxP b α β hab
    cases hsb : succ b with
    | nil =>
      rw [alphabeta_nil_succ succ eval d maxP α β b hsb,
        minimax_nil_succ succ eval d maxP b hsb]
      exact ⟨fun _ => le_refl _, fun _ => le_refl _, fun _ _ => rfl⟩
    | cons ch rest =>
      cases maxP with
      | true =>
        have ihc := ih false ch.2 α β hab
        rw [minimax_score_cons_true succ eval d b ch rest hsb]
        by_cases hcut : β ≤ max α (alphabeta succ eval d false α β ch.2).score
        · rw [alphabeta_cons_true succ eval d α β b ch rest hsb, if_pos hcut]
          dsimp only
          have hbv : β ≤ (alphabeta succ eval d false α β ch.2).score := by
            rcases le_max_iff.mp hcut with hx | hx
            · exact absurd hx (not_le.mpr hab)
            · exact hx
          refine ⟨?_, ?_, ?_⟩
          · intro hv
            exact absurd (le_trans hbv hv) (not_le.mpr hab)
          · intro _
            exact le_trans (ihc.2.1 hbv) (le_max_left _ _)
          · intro _ hv
            exact absurd hbv (not_le.mpr hv)
        · rw [alphabeta_cons_true succ eval d α β b ch rest hsb, if_neg hcut]
          have hab' : max α (alphabeta succ eval d false α β ch.2).score < β := not_le.mp hcut
          obtain ⟨hA, hB, hD, hE⟩ :=
            abGoMax_bounds (g := fun c => (minimax succ eval d false c).score)
              (fun a c ha => ih false c a β ha) rest ch.1
              ((alphabeta succ eval d false α β ch.2).score)
              (max α (alphabeta succ eval d false α β ch.2).score)
              (1 + (alphabeta succ eval d false α β ch.2).nodes)
              (le_max_right _ _) hab'
          refine ⟨?_, ?_, ?_⟩
          · intro hv
            have hv0 : (alphabeta succ eval d false α β ch.2).score ≤ α := le_trans hA hv
            exact max_le (le_trans (ihc.1 hv0) hA) (hD (lt_of_le_of_lt hv hab))
          · intro hv
            exact le_trans (hB hv) (le_max_right _ _)
          · intro hα hβ
            have hm0v : (minimax succ eval d false ch.2).score ≤
                (abGoMax (fun a c => alphabeta succ eval d false a β c) β ch.1
                  ((alphabeta succ eval d false α β ch.2).score)
                  (max α (alphabeta succ eval d false α β ch.2).score)
                  (1 + (alphabeta succ eval d false α β ch.2).nodes) rest).score := by
              by_cases hv0 : (alphabeta succ eval d false α β ch.2).score ≤ α
              · exact le_trans (ihc.1 hv0) hA
              · have hv0β : (alphabeta succ eval d false α β ch.2).score < β :=
                  lt_of_le_of_lt (le_max_right α _) hab'
                exact le_trans (le_of_eq (ihc.2.2 (not_le.mp hv0) hv0β).symm) hA
            refine le_antisymm ?_ (max_le hm0v (hD hβ))
            rcases le_max_iff.mp (hE hβ) with hx | hx
            · rcases le_max_iff.mp hx with hy | hy
              · exact absurd hy (not_le.mpr hα)
              · have hveq : (abGoMax (fun a c => alphabeta succ eval d false a β c) β ch.1
                    ((alphabeta succ eval d false α β ch.2).score)
                    (max α (alphabeta succ eval d false α β ch.2).score)
                    (1 + (alphabeta succ eval d false α β ch.2).nodes) rest).score =
                    (alphabeta succ eval d false α β ch.2).score := le_antisymm hy hA
                have hv0β : (alphabeta succ eval d false α β ch.2).score < β :=
                  lt_of_le_of_lt (le_max_right α _) hab'
                have hα0 : α < (alphabeta succ eval d false α β ch.2).score := hveq ▸ hα
                rw [hveq, ihc.2.2 hα0 hv0β]
                exact le_max_left _ _
            · exact le_trans hx (le_max_right _ _)
      | false =>
        have ihc := ih true ch.2 α β hab
        rw [minimax_score_cons_false succ eval d b ch rest hsb]
        by_cases hcut : min β (alphabeta succ eval d true α β ch.2).score ≤ α
        · rw [alphabeta_cons_false succ eval d α β b ch rest hsb, if_pos hcut]
          dsimp only
          have hvα : (alphabeta succ eval d true α β ch.2).score ≤ α := by
            rcases min_le_iff.mp hcut with hx | hx
            · exact absurd hx (not_le.mpr hab)
            · exact hx
          refine ⟨?_, ?_, ?_⟩
          · intro _
            exact le_trans (min_le_left _ _) (ihc.1 hvα)
          · intro hv
            exact absurd (le_trans hv hvα) (not_le.mpr hab)
          · intro hv _
            exact absurd hvα (not_le.mpr hv)
        · rw [alphabeta_cons_false succ eval d α β b ch rest hsb, if_neg hcut]
          have hab' : α < min β (alphabeta succ eval d true α β ch.2).score := not_le.mp hcut
          obtain ⟨hA, hB, hD, hE⟩ :=
            abGoMin_bounds (g := fun c => (minimax succ eval d true c).score)
              (fun bb c hb => ih true c α bb hb) rest ch.1
              ((alphabeta succ eval d true α β ch.2).score)
              (min β (alphabeta succ eval d true α β ch.2).score)
              (1 + (alphabeta succ eval d true α β ch.2).nodes)
              (min_le_right _ _) hab'
          refine ⟨?_, ?_, ?_⟩
          · intro hv
            exact le_trans (min_le_right _ _) (hB hv)
          · intro hv
            have hβv0 : β ≤ (alphabeta succ eval d true α β ch.2).score := le_trans hv hA
            exact le_min (le_trans hA (ihc.2.1 hβv0))
              (hD (lt_of_lt_of_le hab hv))
          · intro hα hβ
            have hvm0 : (abGoMin (fun bb c => alphabeta succ eval d true α bb c) α ch.1
                ((alphabeta succ eval d true α β ch.2).score)
                (min β (alphabeta succ eval d true α β ch.2).score)
                (1 + (alphabeta succ eval d true α β ch.2).nodes) rest).score ≤
                (minimax succ eval d true ch.2).score := by
              by_cases hv0 : β ≤ (alphabeta succ eval d true α β ch.2).score
              · exact le_trans hA (ihc.2.1 hv0)
              · have hαv0 : α < (alphabeta succ eval d true α β ch.2).score :=
                  lt_of_lt_of_le hab' (min_le_right _ _)
                exact le_trans hA (le_of_eq (ihc.2.2 hαv0 (not_le.mp hv0)))
            refine le_antisymm (le_min hvm0 (hD hα)) ?_
            rcases min_le_iff.mp (hE hα) with hx | hx
            · rcases min_le_iff.mp hx with hy | hy
              · exact absurd hy (not_le.mpr hβ)
              · have hveq : (abGoMin (fun bb c => alphabeta succ eval d true α bb c) α ch.1
                    ((alphabeta succ eval d true α β ch.2).score)
                    (min β (alphabeta succ eval d true α β ch.2).score)
                    (1 + (alphabeta succ eval d true α β ch.2).nodes) rest).score =
                    (alphabeta succ eval d true α β ch.2).score := le_antisymm hA hy
                have hαv0 : α < (alphabeta succ eval d true α β ch.2).score :=
                  lt_of_lt_of_le hab' (min_le_right _ _)
                have hv0β : (alphabeta succ eval d true α β ch.2).score < β := hveq ▸ hβ
                rw [hveq, ihc.2.2 hαv0 hv0β]
                exact min_le_left _ _
            · exact le_trans (min_le_right _ _) hx


/-- At the root window (beta = top) the maximizing alpha-beta loop tracks
the minimax first-wins selection exactly, in both score and move. -/
theorem abGoMax_top {f : Score → σ → SearchRes μ} {g : σ → Score}
    (Hf : ∀ a c, a < (⊤ : Score) →
      (((f a c).score ≤ a → g c ≤ (f a c).score) ∧
       ((⊤ : Score) ≤ (f a c).score → (f a c).score ≤ g c) ∧
       (a < (f a c).score → (f a c).score < (⊤ : Score) → (f a c).score = g c))) :
    ∀ (l : List (μ × σ)) (bm : μ) (bs : Score) (n : Nat), bs < ⊤ →
      (abGoMax f ⊤ bm bs bs n l).score =
        (selBest true (bm, bs) (l.map fun p => (p.1, g p.2))).2 ∧
      (abGoMax f ⊤ bm bs bs n l).move =
        some (selBest true (bm, bs) (l.map fun p => (p.1, g p.2))).1 := by
  intro l
  induction l with
  | nil =>
    intro bm bs n _
    exact ⟨rfl, rfl⟩
  | cons q rest ih =>
    intro bm bs n hbs
    obtain ⟨mv, c⟩ := q
    rw [abGoMax_cons, List.map_cons, selBest_cons]
    simp only [if_true]
    by_cases hv : (f bs c).score ≤ bs
    · have hgc : g c ≤ bs := le_trans ((Hf bs c hbs).1 hv) hv
      have hnocut : ¬ (⊤ : Score) ≤ max bs (f bs c).score :=
        not_le.mpr (max_lt hbs (lt_of_le_of_lt hv hbs))
      rw [if_neg hnocut, if_neg (not_lt.mpr hv), if_neg (not_lt.mpr hv),
        max_eq_left hv, if_neg (not_lt.mpr hgc)]
      exact ih bm bs (n + (f bs c).nodes) hbs
    · have hbsv : bs < (f bs c).score := not_le.mp hv
      rcases (le_top : (f bs c).score ≤ ⊤).lt_or_eq with hvt | hvt
      · have heq : (f bs c).score = g c := (Hf bs c hbs).2.2 hbsv hvt
        have hnocut : ¬ (⊤ : Score) ≤ max bs (f bs c).score :=
          not_le.mpr (max_lt hbs hvt)
        rw [if_neg hnocut, if_pos hbsv, if_pos hbsv, max_eq_right (le_of_lt hbsv)]
        have hbsg : bs < g c := heq ▸ hbsv
        rw [if_pos hbsg, ← heq]
        exact ih mv ((f bs c).score) (n + (f bs c).nodes) hvt
      · have hcut : (⊤ : Score) ≤ max bs (f bs c).score := by
          rw [← hvt]
          exact le_max_right _ _
        rw [if_pos hcut, if_pos hbsv, if_pos hbsv]
        have hgct : g c = ⊤ :=
          top_le_iff.mp (le_trans (le_of_eq hvt.symm) ((Hf bs c hbs).2.1 (le_of_eq hvt.symm)))
        have hbsg : bs < g c := by
          rw [hgct]
          exact hbs
        rw [if_pos hbsg, hgct, selBest_true_top]
        exact ⟨by dsimp only; rw [hvt], rfl⟩

theorem minimax_cons_parts_true (d : Nat) (b : σ) (ch : μ × σ)
    (rest : List (μ × σ)) (h : succ b = ch :: rest) :
    minimax succ eval (d + 1) true b =
      ⟨(selBest true (ch.1, (minimax succ eval d false ch.2).score)
          (rest.map fun p => (p.1, (minimax succ eval d false p.2).score))).2,
       some (selBest true (ch.1, (minimax succ eval d false ch.2).score)
          (rest.map fun p => (p.1, (minimax succ eval d false p.2).score))).1,
       1 + (minimax succ eval d false ch.2).nodes +
         (rest.map fun p => (minimax succ eval d false p.2).nodes).sum⟩ :=
  minimax_cons_parts succ eval d true b ch rest h

/-- The alpha-beta and minimax entry points agree on score and move. -/
theorem searchRoot_eq (d : Nat) (b : σ) :
    (alphabetaSearch succ eval d b).score = (minimaxSearch succ eval d b).score ∧
    (alphabetaSearch succ eval d b).move = (minimaxSearch succ eval d b).move := by
  cases d with
  | zero => exact ⟨rfl, rfl⟩
  | succ d =>
    show (alphabeta succ eval (d + 1) true ⊥ ⊤ b).score = _ ∧
      (alphabeta succ eval (d + 1) true ⊥ ⊤ b).move = _
    cases hsb : succ b with
    | nil =>
      rw [alphabeta_nil_succ succ eval d true ⊥ ⊤ b hsb,
        minimaxSearch, minimax_nil_succ succ eval d true b hsb]
      exact ⟨rfl, rfl⟩
    | cons ch rest =>
      have hbt : (⊥ : Score) < ⊤ := WithBot.bot_lt_coe _
      have ihc := alphabeta_bounds succ eval d false ch.2 ⊥ ⊤ hbt
      have hv0m0 : (alphabeta succ eval d false ⊥ ⊤ ch.2).score =
          (minimax succ eval d false ch.2).score := by
        rcases le_or_lt ((alphabeta succ eval d false ⊥ ⊤ ch.2).score) ⊥ with hb | hb
        · have hvb := le_bot_iff.mp hb
          have hmb := le_bot_iff.mp (le_trans (ihc.1 hb) hb)
          rw [hvb, hmb]
        · rcases (le_top : (alphabeta succ eval d false ⊥ ⊤ ch.2).score ≤ ⊤).lt_or_eq
            with ht | ht
          · exact ihc.2.2 hb ht
          · exact le_antisymm (ihc.2.1 (le_of_eq ht.symm))
              (le_trans le_top (le_of_eq ht.symm))
      rw [minimaxSearch, minimax_cons_parts_true succ eval d b ch rest hsb]
      by_cases hcut : (⊤ : Score) ≤ max ⊥ (alphabeta succ eval d false ⊥ ⊤ ch.2).score
      · rw [alphabeta_cons_true succ eval d ⊥ ⊤ b ch rest hsb, if_pos hcut]
        have hv0 : (alphabeta succ eval d false ⊥ ⊤ ch.2).score = ⊤ := by
          rcases le_max_iff.mp hcut with h | h
          · exact absurd h (not_le.mpr hbt)
          · exact top_le_iff.mp h
        have hm0 : (minimax succ eval d false ch.2).score = ⊤ := by
          rw [← hv0m0, hv0]
        rw [hm0, selBest_true_top]
        exact ⟨by dsimp only; rw [hv0], rfl⟩
      · rw [alphabeta_cons_true succ eval d ⊥ ⊤ b ch rest hsb, if_neg hcut]
        have hv0t : (alphabeta succ eval d false ⊥ ⊤ ch.2).score < ⊤ :=
          lt_of_le_of_lt (le_max_right ⊥ _) (not_le.mp hcut)
        rw [show max ⊥ (alphabeta succ eval d false ⊥ ⊤ ch.2).score =
          (alphabeta succ eval d false ⊥ ⊤ ch.2).score from max_eq_right bot_le]
        obtain ⟨hsc, hmv⟩ := abGoMax_top
          (g := fun c => (minimax succ eval d false c).score)
          (fun a c ha => alphabeta_bounds succ eval d false c a ⊤ ha) rest ch.1
          ((alphabeta succ eval d false ⊥ ⊤ ch.2).score)
          (1 + (alphabeta succ eval d false ⊥ ⊤ ch.2).nodes) hv0t
        rw [hsc, hmv, hv0m0]
        exact ⟨rfl, rfl⟩

theorem minimax_cons_parts_false (d : Nat) (b : σ) (ch : μ × σ)
    (rest : List (μ × σ)) (h : succ b = ch :: rest) :
    minimax succ eval (d + 1) false b =
      ⟨(selBest false (ch.1, (minimax succ eval d true ch.2).score)
          (rest.map fun p => (p.1, (minimax succ eval d true p.2).score))).2,
       some (selBest false (ch.1, (minimax succ eval d true ch.2).score)
          (rest.map fun p => (p.1, (minimax succ eval d true p.2).score))).1,
       1 + (minimax succ eval d true ch.2).nodes +
         (rest.map fun p => (minimax succ eval d true p.2).nodes).sum⟩ :=
  minimax_cons_parts succ eval d false b ch rest h

theorem abGoMax_nodes {f : Score → σ → SearchRes μ} (β : Score) (gN : σ → Nat)
    (Hc : ∀ a c, (f a c).nodes ≤ gN c) :
    ∀ (l : List (μ × σ)) (bm : μ) (bs a : Score) (n : Nat),
      (abGoMax f β bm bs a n l).nodes ≤ n + (l.map fun p => gN p.2).sum := by
  intro l
  induction l with
  | nil =>
    intro bm bs a n
    rw [abGoMax_nil]
    simp
  | cons q rest ih =>
    intro bm bs a n
    obtain ⟨mv, c⟩ := q
    rw [abGoMax_cons]
    simp only [List.map_cons, List.sum_cons]
    have h2 := Hc a c
    by_cases hcut : β ≤ max a (f a c).score
    · rw [if_pos hcut]
      dsimp only
      omega
    · rw [if_neg hcut]
      have h1 := ih (if bs < (f a c).score then mv else bm)
        (if bs < (f a c).score then (f a c).score else bs)
        (max a (f a c).score) (n + (f a c).nodes)
      omega

theorem abGoMin_nodes {f : Score → σ → SearchRes μ} (α : Score) (gN : σ → Nat)
    (Hc : ∀ bb c, (f bb c).nodes ≤ gN c) :
    ∀ (l : List (μ × σ)) (bm : μ) (bs bb : Score) (n : Nat),
      (abGoMin f α bm bs bb n l).nodes ≤ n + (l.map fun p => gN p.2).sum := by
  intro l
  induction l with
  | nil =>
    intro bm bs bb n
    rw [abGoMin_nil]
    simp
  | cons q rest ih =>
    intro bm bs bb n
    obtain ⟨mv, c⟩ := q
    rw [abGoMin_cons]
    simp only [List.map_cons, List.sum_cons]
    have h2 := Hc bb c
    by_cases hcut : min bb (f bb c).score ≤ α
    · rw [if_pos hcut]
      dsimp only
      omega
    · rw [if_neg hcut]
      have h1 := ih (if (f bb c).score < bs then mv else bm)
        (if (f bb c).score < bs then (f bb c).score else bs)
        (min bb (f bb c).score) (n + (f bb c).nodes)
      omega

/-- Alpha-beta never expands more nodes than minimax, at every node and
any window. -/
theorem alphabeta_nodes_le :
    ∀ (d : Nat) (maxP : Bool) (α β : Score) (b : σ),
      (alphabeta succ eval d maxP α β b).nodes ≤ (minimax succ eval d maxP b).nodes := by
  intro d
  induction d with
  | zero =>
    intro maxP α β b
    exact le_refl _
  | succ d ih =>
    intro maxP α β b
    cases hsb : succ b with
    | nil =>
      rw [alphabeta_nil_succ succ eval d maxP α β b hsb,
        minimax_nil_succ succ eval d maxP b hsb]
    | cons ch rest =>
      cases maxP with
      | true =>
        rw [alphabeta_cons_true succ eval d α β b ch rest hsb,
          minimax_cons_parts_true succ eval d b ch rest hsb]
        dsimp only
        have h0 := ih false α β ch.2
        by_cases hcut : β ≤ max α (alphabeta succ eval d false α β ch.2).score
        · rw [if_pos hcut]
          dsimp only
          have hsum : 0 ≤ (rest.map fun p => (minimax succ eval d false p.2).nodes).sum :=
            Nat.zero_le _
          omega
        · rw [if_neg hcut]
          have h1 := abGoMax_nodes (f := fun a c => alphabeta succ eval d false a β c)
            β (fun c => (minimax succ eval d false c).nodes)
            (fun a c => ih false a β c) rest ch.1
            ((alphabeta succ eval d false α β ch.2).score)
            (max α (alphabeta succ eval d false α β ch.2).score)
            (1 + (alphabeta succ eval d false α β ch.2).nodes)
          omega
      | false =>
        rw [alphabeta_cons_false succ eval d α β b ch rest hsb,
          minimax_cons_parts_false succ eval d b ch rest hsb]
        dsimp only
        have h0 := ih true α β ch.2
        by_cases hcut : min β (alphabeta succ eval d true α β ch.2).score ≤ α
        · rw [if_pos hcut]
          dsimp only
          have hsum : 0 ≤ (rest.map fun p => (minimax succ eval d true p.2).nodes).sum :=
            Nat.zero_le _
          omega
        · rw [if_neg hcut]
          have h1 := abGoMin_nodes (f := fun bb c => alphabeta succ eval d true α bb c)
            α (fun c => (minimax succ eval d true c).nodes)
            (fun bb c => ih true α bb c) rest ch.1
            ((alphabeta succ eval d true α β ch.2).score)
            (min β (alphabeta succ eval d true α β ch.2).score)
            (1 + (alphabeta succ eval d true α β ch.2).nodes)
          omega

end SearchLemmas

section BoardLemmas

theorem rayCells_succ (b : Board) (r c dr dc : Int) (fuel : Nat) :
    rayCells b r c dr dc (fuel + 1) =
      if 0 ≤ r + dr ∧ r + dr < (b.height : Int) ∧ 0 ≤ c + dc ∧ c + dc < (b.width : Int) then
        if b.blocked.testBit ((r + dr).toNat * b.width + (c + dc).toNat) then []
        else ((r + dr).toNat, (c + dc).toNat) :: rayCells b (r + dr) (c + dc) dr dc fuel
      else [] := rfl

theorem rayCells_spec (b : Board) (dr dc : Int) :
    ∀ (fuel : Nat) (r c : Int) (mv : Nat × Nat), mv ∈ rayCells b r c dr dc fuel →
      inBoundsCell b mv = true ∧ isBlocked b mv = false := by
  intro fuel
  induction fuel with
  | zero =>
    intro r c mv h
    simp [rayCells] at h
  | succ fuel ih =>
    intro r c mv h
    rw [rayCells_succ] at h
    by_cases h1 : 0 ≤ r + dr ∧ r + dr < (b.height : Int) ∧ 0 ≤ c + dc ∧ c + dc < (b.width : Int)
    · rw [if_pos h1] at h
      by_cases h2 : b.blocked.testBit ((r + dr).toNat * b.width + (c + dc).toNat) = true
      · rw [if_pos h2] at h
        simp at h
      · rw [if_neg h2] at h
        rcases List.mem_cons.mp h with heq | hmem
        · subst heq
          obtain ⟨ha, hb2, hc, hd⟩ := h1
          constructor
          · simp only [inBoundsCell, Bool.and_eq_true, decide_eq_true_eq]
            exact ⟨by omega, by omega⟩
          · simp only [isBlocked, cellIdx]
            exact Bool.not_eq_true _ ▸ h2
        · exact ih (r + dr) (c + dc) mv hmem
    · rw [if_neg h1] at h
      simp at h

theorem openCells_spec (b : Board) (mv : Nat × Nat) (h : mv ∈ openCells b) :
    inBoundsCell b mv = true ∧ isBlocked b mv = false := by
  simp only [openCells, List.mem_flatMap, List.mem_filterMap, List.mem_range] at h
  obtain ⟨r, hr, c, hc, hmv⟩ := h
  by_cases hbl : b.blocked.testBit (r * b.width + c) = true
  · rw [if_pos hbl] at hmv
    cases hmv
  · rw [if_neg hbl] at hmv
    injection hmv with hmv
    subst hmv
    constructor
    · simp only [inBoundsCell, Bool.and_eq_true, decide_eq_true_eq]
      exact ⟨hr, hc⟩
    · simp only [isBlocked, cellIdx]
      exact Bool.not_eq_true _ ▸ hbl

theorem legalMoves_spec (b : Board) (p : Bool) (mv : Nat × Nat)
    (h : mv ∈ legalMoves b p) :
    inBoundsCell b mv = true ∧ isBlocked b mv = false := by
  unfold legalMoves at h
  cases hpp : playerPos b p with
  | none =>
    rw [hpp] at h
    exact openCells_spec b mv h
  | some rc =>
    obtain ⟨r, c⟩ := rc
    rw [hpp] at h
    simp only [List.mem_flatMap] at h
    obtain ⟨d, _, hd⟩ := h
    exact rayCells_spec b d.1 d.2 (b.width + b.height) r c mv hd

theorem isBlocked_moveBoard (b : Board) (mv rc : Nat × Nat) :
    isBlocked (moveBoard b mv) rc =
      (isBlocked b rc || decide (cellIdx b mv = cellIdx b rc)) := by
  simp only [isBlocked, moveBoard, cellIdx, Nat.testBit_or, Nat.one_shiftLeft,
    Nat.testBit_two_pow]

theorem playerPos_moveBoard_active (b : Board) (mv : Nat × Nat) :
    playerPos (moveBoard b mv) (activePlayer b) = some mv := by
  cases hb : b.p1ToMove <;> simp [playerPos, moveBoard, activePlayer, hb]

theorem playerPos_moveBoard_other (b : Board) (mv : Nat × Nat) (q : Bool)
    (hq : q ≠ activePlayer b) :
    playerPos (moveBoard b mv) q = playerPos b q := by
  cases hb : b.p1ToMove <;> cases q <;>
    simp_all [playerPos, moveBoard, activePlayer]

theorem reachable_pos_blocked {b : Board} (hb : Reachable b) :
    ∀ (q : Bool) (rc : Nat × Nat), playerPos b q = some rc → isBlocked b rc = true := by
  induction hb with
  | init w h =>
    intro q rc hq
    cases q <;> simp [playerPos, Board.init] at hq
  | @step b mv b' hbr happ ih =>
    unfold applyMove at happ
    split at happ
    · injection happ with hb'
      subst hb'
      intro q rc hq
      by_cases hq1 : q = activePlayer b
      · rw [hq1, playerPos_moveBoard_active] at hq
        injection hq with hq
        subst hq
        rw [isBlocked_moveBoard]
        simp
      · rw [playerPos_moveBoard_other b mv q hq1] at hq
        rw [isBlocked_moveBoard]
        simp [ih q rc hq]
    · cases happ

end BoardLemmas

section SearchMemLemmas

variable {σ μ : Type} (succ : σ → List (μ × σ)) (eval : σ → Score)

theorem selBest_mem (isMax : Bool) :
    ∀ (l : List (μ × Score)) (p : μ × Score), selBest isMax p l ∈ p :: l := by
  intro l
  induction l with
  | nil =>
    intro p
    exact List.mem_singleton.mpr rfl
  | cons q rest ih =>
    intro p
    obtain ⟨mv, s⟩ := q
    rw [selBest_cons]
    have hmem := ih (if (if isMax then p.2 < s else s < p.2) then (mv, s) else p)
    rcases List.mem_cons.mp hmem with heq | hmem'
    · rw [heq]
      by_cases hc : (if isMax then p.2 < s else s < p.2)
      · rw [if_pos hc]
        exact List.mem_cons_of_mem _ (List.mem_cons_self _ _)
      · rw [if_neg hc]
        exact List.mem_cons_self _ _
    · exact List.mem_cons_of_mem _ (List.mem_cons_of_mem _ hmem')

theorem minimax_move_mem (d : Nat) (maxP : Bool) (b : σ) (mv : μ)
    (h : (minimax succ eval d maxP b).move = some mv) :
    mv ∈ (succ b).map Prod.fst := by
  cases d with
  | zero => cases h
  | succ d =>
    cases hsb : succ b with
    | nil =>
      rw [minimax_nil_succ succ eval d maxP b hsb] at h
      cases h
    | cons ch rest =>
      rw [minimax_cons_parts succ eval d maxP b ch rest hsb] at h
      injection h with h
      subst h
      have hmem := selBest_mem maxP
        (rest.map fun p => (p.1, (minimax succ eval d (!maxP) p.2).score))
        (ch.1, (minimax succ eval d (!maxP) ch.2).score)
      rw [List.map_cons]
      rcases List.mem_cons.mp hmem with heq | hmem'
    
      · rw [heq]
        exact List.mem_cons_self _ _
      · simp only [List.mem_map] at hmem'
        obtain ⟨p, hp, hpe⟩ := hmem'
        apply List.mem_cons_of_mem
        simp only [List.mem_map]
        exact ⟨p, hp, by rw [← hpe]⟩

theorem succBoard_fsts (b : Board) :
    (succBoard b).map Prod.fst = legalMoves b (activePlayer b) := by
  simp only [succBoard, List.map_map]
  exact List.map_id _

end SearchMemLemmas

section TieBreakLemmas

variable {μ : Type}

theorem selBest_true_find :
    ∀ (l : List (μ × Score)) (p : μ × Score),
      List.find? (fun q => decide (q.2 = (selBest true p l).2)) (p :: l) =
        some (selBest true p l) := by
  intro l
  induction l with
  | nil =>
    intro p
    simp [selBest]
  | cons q rest ih =>
    intro p
    obtain ⟨mv, s⟩ := q
    rw [selBest_cons]
    simp only [if_true]
    by_cases hps : p.2 < s
    · rw [if_pos hps]
      have hge : s ≤ (selBest true (mv, s) rest).2 := selBest_true_ge rest (mv, s)
      have hpr : ¬ (p.2 = (selBest true (mv, s) rest).2) := by
        intro he
        have hlt := lt_of_lt_of_le hps hge
        rw [← he] at hlt
        exact lt_irrefl _ hlt
      rw [List.find?_cons_of_neg _ (by simp [hpr])]
      exact ih (mv, s)
    · rw [if_neg hps]
      have ihp := ih p
      by_cases hpr : p.2 = (selBest true p rest).2
      · rw [List.find?_cons_of_pos _ (by simp [hpr])]
        rw [List.find?_cons_of_pos _ (by simp [hpr])] at ihp
        exact ihp
      · rw [List.find?_cons_of_neg _ (by simp [hpr])]
        rw [List.find?_cons_of_neg _ (by simp [hpr])] at ihp
        have hsr : ¬ (s = (selBest true p rest).2) := by
          intro he
          have hge := selBest_true_ge rest p
          exact hpr (le_antisymm hge (he ▸ (not_lt.mp hps)))
        rw [List.find?_cons_of_neg _ (by simp [hsr])]
        exact ihp

theorem selBest_false_find :
    ∀ (l : List (μ × Score)) (p : μ × Score),
      List.find? (fun q => decide (q.2 = (selBest false p l).2)) (p :: l) =
        some (selBest false p l) := by
  intro l
  induction l with
  | nil =>
    intro p
    simp [selBest]
  | cons q rest ih =>
    intro p
    obtain ⟨mv, s⟩ := q
    rw [selBest_cons]
    simp only [Bool.false_eq_true, if_false]
    by_cases hps : s < p.2
    · rw [if_pos hps]
      have hge : (selBest false (mv, s) rest).2 ≤ s := selBest_false_le rest (mv, s)
      have hpr : ¬ (p.2 = (selBest false (mv, s) rest).2) := by
        intro he
        have hlt := lt_of_le_of_lt hge hps
        rw [← he] at hlt
        exact lt_irrefl _ hlt
      rw [List.find?_cons_of_neg _ (by simp [hpr])]
      exact ih (mv, s)
    · rw [if_neg hps]
      have ihp := ih p
      by_cases hpr : p.2 = (selBest false p rest).2
      · rw [List.find?_cons_of_pos _ (by simp [hpr])]
        rw [List.find?_cons_of_pos _ (by simp [hpr])] at ihp
        exact ihp
      · rw [List.find?_cons_of_neg _ (by simp [hpr])]
        rw [List.find?_cons_of_neg _ (by simp [hpr])] at ihp
        have hsr : ¬ (s = (selBest false p rest).2) := by
          intro he
          have hge := selBest_false_le rest p
          exact hpr (le_antisymm (he ▸ (not_lt.mp hps)) hge)
        rw [List.find?_cons_of_neg _ (by simp [hsr])]
        exact ihp

end TieBreakLemmas

section RecognizerLemmas

variable {Item : Type}

theorem scoreModels_cons (item : Item) (w : String) (m : WordModel Item)
    (rest : List (String × WordModel Item)) (best : WithBot ℤ) (guess : Option String) :
    scoreModels item ((w, m) :: rest) best guess =
      ((w, scoreVal (m item)) ::
        (scoreModels item rest (if best < scoreVal (m item) then scoreVal (m item) else best)
          (if best < scoreVal (m item) then some w else guess)).1,
       (scoreModels item rest (if best < scoreVal (m item) then scoreVal (m item) else best)
          (if best < scoreVal (m item) then some w else guess)).2) := rfl

theorem scoreModels_fst (item : Item) :
    ∀ (models : List (String × WordModel Item)) (best : WithBot ℤ) (guess : Option String),
      (scoreModels item models best guess).1 =
        models.map fun pm => (pm.1, scoreVal (pm.2 item)) := by
  intro models
  induction models with
  | nil =>
    intro best guess
    rfl
  | cons pm rest ih =>
    intro best guess
    obtain ⟨w, m⟩ := pm
    rw [scoreModels_cons, List.map_cons]
    simp only [ih]

theorem scoreModels_allnone (item : Item) :
    ∀ (models : List (String × WordModel Item)) (best : WithBot ℤ) (guess : Option String),
      (∀ pm ∈ models, pm.2 item = none) →
      (scoreModels item models best guess).2.2 = guess ∧
      (scoreModels item models best guess).2.1 = best := by
  intro models
  induction models with
  | nil =>
    intro best guess _
    exact ⟨rfl, rfl⟩
  | cons pm rest ih =>
    intro best guess hall
    obtain ⟨w, m⟩ := pm
    have hm : m item = none := hall (w, m) (List.mem_cons_self _ _)
    rw [scoreModels_cons]
    have hsc : scoreVal (m item) = ⊥ := by rw [hm]; rfl
    rw [hsc, if_neg (not_lt_bot), if_neg (not_lt_bot)]
    exact ih best guess fun pm hpm => hall pm (List.mem_cons_of_mem _ hpm)

theorem recognize_cons (models : List (String × WordModel Item)) (t : Item) (ts : List Item) :
    recognize models (t :: ts) =
      ((scoreModels t models ⊥ none).1 :: (recognize models ts).1,
       (scoreModels t models ⊥ none).2.2 :: (recognize models ts).2) := rfl

theorem recognize_get1 (models : List (String × WordModel Item)) :
    ∀ (ts : List Item) (k : Nat),
      (recognize models ts).1[k]? = (ts[k]?).map fun t => (scoreModels t models ⊥ none).1 := by
  intro ts
  induction ts with
  | nil =>
    intro k
    rfl
  | cons t ts ih =>
    intro k
    rw [recognize_cons]
    cases k with
    | zero => simp
    | succ k =>
      simp only [List.getElem?_cons_succ]
      exact ih k

theorem recognize_get2 (models : List (String × WordModel Item)) :
    ∀ (ts : List Item) (k : Nat),
      (recognize models ts).2[k]? = (ts[k]?).map fun t => (scoreModels t models ⊥ none).2.2 := by
  intro ts
  induction ts with
  | nil =>
    intro k
    rfl
  | cons t ts ih =>
    intro k
    rw [recognize_cons]
    cases k with
    | zero => simp
    | succ k =>
      simp only [List.getElem?_cons_succ]
      exact ih k

end RecognizerLemmas

section SelectorLemmas

variable {D : Type}

theorem selectDICGo_cons (baseModel : ℕ → D → Option (HMM D)) (X : D)
    (hwords : List (String × D)) (n : ℕ) (ns : List ℕ) (best : WithBot ℚ)
    (bestM : Option (HMM D)) (trained : List ℕ) :
    selectDICGo baseModel X hwords (n :: ns) best bestM trained =
      if best < dicScore (baseModel n X) X hwords then
        selectDICGo baseModel X hwords ns (dicScore (baseModel n X) X hwords)
          (baseModel n X) (trained ++ [n])
      else selectDICGo baseModel X hwords ns best bestM (trained ++ [n]) := rfl

theorem selectDICGo_spec (baseModel : ℕ → D → Option (HMM D)) (X : D)
    (hwords : List (String × D)) :
    ∀ (ns : List ℕ) (best : WithBot ℚ) (bestM : Option (HMM D)) (trained : List ℕ),
      (selectDICGo baseModel X hwords ns best bestM trained).2 = trained ++ ns ∧
      ((selectDICGo baseModel X hwords ns best bestM trained).1 = bestM ∨
        ∃ n ∈ ns, (selectDICGo baseModel X hwords ns best bestM trained).1 = baseModel n X) := by
  intro ns
  induction ns with
  | nil =>
    intro best bestM trained
    exact ⟨(List.append_nil trained).symm, Or.inl rfl⟩
  | cons n ns ih =>
    intro best bestM trained
    rw [selectDICGo_cons]
    by_cases hlt : best < dicScore (baseModel n X) X hwords
    · rw [if_pos hlt]
      obtain ⟨h2, h1⟩ := ih (dicScore (baseModel n X) X hwords) (baseModel n X) (trained ++ [n])
      refine ⟨by rw [h2, List.append_assoc]; rfl, ?_⟩
      rcases h1 with h | ⟨m, hm, he⟩
      · exact Or.inr ⟨n, List.mem_cons_self _ _, h⟩
      · exact Or.inr ⟨m, List.mem_cons_of_mem _ hm, he⟩
    · rw [if_neg hlt]
      obtain ⟨h2, h1⟩ := ih best bestM (trained ++ [n])
      refine ⟨by rw [h2, List.append_assoc]; rfl, ?_⟩
      rcases h1 with h | ⟨m, hm, he⟩
      · exact Or.inl h
      · exact Or.inr ⟨m, List.mem_cons_of_mem _ hm, he⟩

theorem selectBICGo_cons (baseModel : ℕ → D → Option (HMM D)) (X : D)
    (logN : ℚ) (n : ℕ) (ns : List ℕ) (best : WithTop ℚ)
    (bestM : Option (HMM D)) (trained : List ℕ) :
    selectBICGo baseModel X logN (n :: ns) best bestM trained =
      if bicScore (baseModel n X) X logN < best then
        selectBICGo baseModel X logN ns (bicScore (baseModel n X) X logN)
          (baseModel n X) (trained ++ [n])
      else selectBICGo baseModel X logN ns best bestM (trained ++ [n]) := rfl

theorem selectBICGo_spec (baseModel : ℕ → D → Option (HMM D)) (X : D) (logN : ℚ) :
    ∀ (ns : List ℕ) (best : WithTop ℚ) (bestM : Option (HMM D)) (trained : List ℕ),
      (selectBICGo baseModel X logN ns best bestM trained).2 = trained ++ ns ∧
      ((selectBICGo baseModel X logN ns best bestM trained).1 = bestM ∨
        ∃ n ∈ ns, (selectBICGo baseModel X logN ns best bestM trained).1 = baseModel n X) := by
  intro ns
  induction ns with
  | nil =>
    intro best bestM trained
    exact ⟨(List.append_nil trained).symm, Or.inl rfl⟩
  | cons n ns ih =>
    intro best bestM trained
    rw [selectBICGo_cons]
    by_cases hlt : bicScore (baseModel n X) X logN < best
    · rw [if_pos hlt]
      obtain ⟨h2, h1⟩ := ih (bicScore (baseModel n X) X logN) (baseModel n X) (trained ++ [n])
      refine ⟨by rw [h2, List.append_assoc]; rfl, ?_⟩
      rcases h1 with h | ⟨m, hm, he⟩
      · exact Or.inr ⟨n, List.mem_cons_self _ _, h⟩
      · exact Or.inr ⟨m, List.mem_cons_of_mem _ hm, he⟩
    · rw [if_neg hlt]
      obtain ⟨h2, h1⟩ := ih best bestM (trained ++ [n])
      refine ⟨by rw [h2, List.append_assoc]; rfl, ?_⟩
      rcases h1 with h | ⟨m, hm, he⟩
      · exact Or.inl h
      · exact Or.inr ⟨m, List.mem_cons_of_mem _ hm, he⟩

theorem cvStep_model (baseModel : ℕ → D → Option (HMM D)) (combine : List ℕ → D)
    (n : ℕ) (tr te : List ℕ) :
    (cvStep baseModel combine n tr te).2.1 = baseModel n (combine tr) := by
  rcases hbm : baseModel n (combine tr) with _ | m
  · simp [cvStep, hbm]
  · rcases hsc : m.score (combine te) with _ | logL
    · simp [cvStep, hbm, hsc]
    · simp [cvStep, hbm, hsc]

theorem cvStep_trained (baseModel : ℕ → D → Option (HMM D)) (combine : List ℕ → D)
    (n : ℕ) (tr te : List ℕ) :
    ∀ k ∈ (cvStep baseModel combine n tr te).2.2, k = n := by
  rcases hbm : baseModel n (combine tr) with _ | m
  · simp [cvStep, hbm]
  · rcases hsc : m.score (combine te) with _ | logL
    · simp [cvStep, hbm, hsc]
    · simp [cvStep, hbm, hsc]

theorem cvFolds_cons (baseModel : ℕ → D → Option (HMM D)) (combine : List ℕ → D)
    (n : ℕ) (tr te : List ℕ) (rest : List (List ℕ × List ℕ)) (curX : D)
    (hm : Option (HMM D)) :
    cvFolds baseModel combine n ((tr, te) :: rest) curX hm =
      ((cvStep baseModel combine n tr te).1 ::
        (cvFolds baseModel combine n rest (combine tr)
          (cvStep baseModel combine n tr te).2.1).1,
       (cvFolds baseModel combine n rest (combine tr)
          (cvStep baseModel combine n tr te).2.1).2.1,
       (cvFolds baseModel combine n rest (combine tr)
          (cvStep baseModel combine n tr te).2.1).2.2.1,
       (cvStep baseModel combine n tr te).2.2 ++
        (cvFolds baseModel combine n rest (combine tr)
          (cvStep baseModel combine n tr te).2.1).2.2.2) := rfl

theorem cvFolds_spec (baseModel : ℕ → D → Option (HMM D)) (combine : List ℕ → D)
    (n : ℕ) :
    ∀ (splits : List (List ℕ × List ℕ)) (curX : D) (hm : Option (HMM D)),
      (∀ k ∈ (cvFolds baseModel combine n splits curX hm).2.2.2, k = n) ∧
      ((cvFolds baseModel combine n splits curX hm).2.1 = hm ∨
        ∃ d, (cvFolds baseModel combine n splits curX hm).2.1 = baseModel n d) := by
  intro splits
  induction splits with
  | nil =>
    intro curX hm
    exact ⟨fun k hk => absurd hk (List.not_mem_nil k), Or.inl rfl⟩
  | cons p rest ih =>
    intro curX hm
    obtain ⟨tr, te⟩ := p
    rw [cvFolds_cons]
    obtain ⟨ihT, ihM⟩ := ih (combine tr) (cvStep baseModel combine n tr te).2.1
    constructor
    · intro k hk
      rcases List.mem_append.mp hk with h | h
      · exact cvStep_trained baseModel combine n tr te k h
      · exact ihT k h
    · rcases ihM with h | ⟨d, hd⟩
      · exact Or.inr ⟨combine tr, h.trans (cvStep_model baseModel combine n tr te)⟩
      · exact Or.inr ⟨d, hd⟩

theorem selectCVGo_cons (baseModel : ℕ → D → Option (HMM D)) (combine : List ℕ → D)
    (splits : List (List ℕ × List ℕ)) (n : ℕ) (ns : List ℕ) (curX : D)
    (best : WithBot ℚ) (bestM : Option (HMM D)) (trained : List ℕ) :
    selectCVGo baseModel combine splits (n :: ns) curX best bestM trained =
      if best < meanW (cvFolds baseModel combine n splits curX none).1 then
        selectCVGo baseModel combine splits ns
          (cvFolds baseModel combine n splits curX none).2.2.1
          (meanW (cvFolds baseModel combine n splits curX none).1)
          (cvFolds baseModel combine n splits curX none).2.1
          (trained ++ (cvFolds baseModel combine n splits curX none).2.2.2)
      else
        selectCVGo baseModel combine splits ns
          (cvFolds baseModel combine n splits curX none).2.2.1
          best bestM
          (trained ++ (cvFolds baseModel combine n splits curX none).2.2.2) := rfl

theorem selectCVGo_spec (baseModel : ℕ → D → Option (HMM D)) (combine : List ℕ → D)
    (splits : List (List ℕ × List ℕ)) :
    ∀ (ns : List ℕ) (curX : D) (best : WithBot ℚ) (bestM : Option (HMM D))
      (trained : List ℕ),
      (∀ k ∈ (selectCVGo baseModel combine splits ns curX best bestM trained).2.2,
        k ∈ trained ∨ k ∈ ns) ∧
      ((selectCVGo baseModel combine splits ns curX best bestM trained).1 = bestM ∨
        (selectCVGo baseModel combine splits ns curX best bestM trained).1 = none ∨
        ∃ n ∈ ns, ∃ d,
          (selectCVGo baseModel combine splits ns curX best bestM trained).1 =
            baseModel n d) := by
  intro ns
  induction ns with
  | nil =>
    intro curX best bestM trained
    exact ⟨fun k hk => Or.inl hk, Or.inl rfl⟩
  | cons n ns ih =>
    intro curX best bestM trained
    rw [selectCVGo_cons]
    have hcv := cvFolds_spec baseModel combine n splits curX none
    by_cases hlt : best < meanW (cvFolds baseModel combine n splits curX none).1
    · rw [if_pos hlt]
      obtain ⟨ihT, ihM⟩ := ih (cvFolds baseModel combine n splits curX none).2.2.1
        (meanW (cvFolds baseModel combine n splits curX none).1)
        (cvFolds baseModel combine n splits curX none).2.1
        (trained ++ (cvFolds baseModel combine n splits curX none).2.2.2)
      constructor
      · intro k hk
        rcases ihT k hk with hk' | hk'
        · rcases List.mem_append.mp hk' with h | h
          · exact Or.inl h
          · exact Or.inr ((hcv.1 k h) ▸ List.mem_cons_self _ _)
        · exact Or.inr (List.mem_cons_of_mem _ hk')
      · rcases ihM with h | h | ⟨m2, hm2, d, hd⟩
        · rcases hcv.2 with hh | ⟨d, hd⟩
          · exact Or.inr (Or.inl (h.trans hh))
          · exact Or.inr (Or.inr ⟨n, List.mem_cons_self _ _, d, h.trans hd⟩)
        · exact Or.inr (Or.inl h)
        · exact Or.inr (Or.inr ⟨m2, List.mem_cons_of_mem _ hm2, d, hd⟩)
    · rw [if_neg hlt]
      obtain ⟨ihT, ihM⟩ := ih (cvFolds baseModel combine n splits curX none).2.2.1
        best bestM (trained ++ (cvFolds baseModel combine n splits curX none).2.2.2)
      constructor
      · intro k hk
        rcases ihT k hk with hk' | hk'
        · rcases List.mem_append.mp hk' with h | h
          · exact Or.inl h
          · exact Or.inr ((hcv.1 k h) ▸ List.mem_cons_self _ _)
        · exact Or.inr (List.mem_cons_of_mem _ hk')
      · rcases ihM with h | h | ⟨m2, hm2, d, hd⟩
        · exact Or.inl h
        · exact Or.inr (Or.inl h)
        · exact Or.inr (Or.inr ⟨m2, List.mem_cons_of_mem _ hm2, d, hd⟩)

end SelectorLemmas

/-! ### Claim theorems -/

/-- Claim C1 (counterexample): the regression test pins the expansion
count at 13681, but the spec-modelled engine (queen moves, depth-2
minimax, one count per search call, first-wins ties) expands a different
number of nodes on the fresh default 7x7 board. -/
theorem claim_C1_counterexample : expandedDepth2 ≠ 13681 := by decide

/-- Claim C1 (amended): the depth-2 minimax search of the section-8
reference scenario on the fresh default 7x7 board expands a
deterministic, reproducible number of nodes; for the spec-modelled engine
that pinned count is 2402. -/
theorem claim_C1_amended_count : expandedDepth2 = 2402 := by decide

/-- Claim C2: for every game (any successor enumeration in a fixed
order), every evaluation function, every depth and every root state, the
alpha-beta search returns the same (score, move) pair as plain minimax
at that depth, and expands no more nodes than minimax does. -/
theorem claim_C2_alphabeta_refines_minimax {σ μ : Type}
    (succ : σ → List (μ × σ)) (eval : σ → Score) (d : Nat) (b : σ) :
    (alphabetaSearch succ eval d b).score = (minimaxSearch succ eval d b).score ∧
    (alphabetaSearch succ eval d b).move = (minimaxSearch succ eval d b).move ∧
    (alphabetaSearch succ eval d b).nodes ≤ (minimaxSearch succ eval d b).nodes :=
  ⟨(searchRoot_eq succ eval d b).1, (searchRoot_eq succ eval d b).2,
   alphabeta_nodes_le succ eval d true ⊥ ⊤ b⟩

/-- Claim C3: on every reachable board, legal_moves only returns moves
whose target cell is inside the grid bounds and neither blocked nor
occupied by either player. -/
theorem claim_C3_legal_moves_safe (b : Board) (hb : Reachable b) (p : Bool)
    (mv : Nat × Nat) (hm : mv ∈ legalMoves b p) :
    inBoundsCell b mv = true ∧ isBlocked b mv = false ∧
      ∀ q : Bool, playerPos b q ≠ some mv := by
  obtain ⟨h1, h2⟩ := legalMoves_spec b p mv hm
  refine ⟨h1, h2, ?_⟩
  intro q hq
  have hbl := reachable_pos_blocked hb q mv hq
  simp [h2] at hbl

/-- Witness for claim C3 at the fresh 7x7 board and the move (0, 0). -/
theorem claim_C3_witness :
    Reachable (Board.init 7 7) ∧ (0, 0) ∈ legalMoves (Board.init 7 7) true ∧
      (inBoundsCell (Board.init 7 7) (0, 0) = true ∧
       isBlocked (Board.init 7 7) (0, 0) = false ∧
       ∀ q : Bool, playerPos (Board.init 7 7) q ≠ some (0, 0)) :=
  ⟨Reachable.init 7 7, by decide,
   claim_C3_legal_moves_safe (Board.init 7 7) (Reachable.init 7 7) true (0, 0) (by decide)⟩

/-- Claim C4: apply_move returns the successor board exactly when the
move is in the current legal-move set and the InvalidMoveError signal
otherwise (never silently corrected); the successor has the position of
the mover updated, the destination cell blocked, every previously blocked
cell (the origin included) still blocked, and the active player flipped;
the input board itself is never mutated (applyMove is a pure function of
an immutable value). -/
theorem claim_C4_apply_move (b : Board) (mv : Nat × Nat) :
    applyMove b mv =
      (if mv ∈ legalMoves b (activePlayer b) then some (moveBoard b mv) else none) ∧
    playerPos (moveBoard b mv) (activePlayer b) = some mv ∧
    isBlocked (moveBoard b mv) mv = true ∧
    (∀ rc : Nat × Nat, isBlocked (moveBoard b mv) rc =
      (isBlocked b rc || decide (cellIdx b mv = cellIdx b rc))) ∧
    (moveBoard b mv).p1ToMove = !b.p1ToMove := by
  refine ⟨rfl, playerPos_moveBoard_active b mv, ?_,
    fun rc => isBlocked_moveBoard b mv rc, rfl⟩
  rw [isBlocked_moveBoard]
  simp

/-- Claim C5: whenever the active player has no legal moves, is_terminal
holds and get_move of the driver reports the forfeit sentinel (a total
function: nothing is thrown). -/
theorem claim_C5_terminal_forfeit (eval : Board → Score) (b : Board) (n : Nat)
    (h : legalMoves b (activePlayer b) = []) :
    isTerminal b = true ∧ getMove eval b n = none := by
  constructor
  · rw [isTerminal, h]
    rfl
  · simp only [getMove, h]

/-- Witness for claim C5 at the 0x0 board. -/
theorem claim_C5_witness :
    legalMoves (Board.init 0 0) (activePlayer (Board.init 0 0)) = [] ∧
      (isTerminal (Board.init 0 0) = true ∧
       getMove (fun _ => (0 : Score)) (Board.init 0 0) 3 = none) :=
  ⟨rfl, claim_C5_terminal_forfeit (fun _ => (0 : Score)) (Board.init 0 0) 3 rfl⟩

/-- Claim C6: whenever at least one legal move exists, get_move returns a
legal move for every time budget, including a budget already at or below
the safety margin at entry (zero completed depths). -/
theorem claim_C6_budget_returns_legal (eval : Board → Score) (b : Board) (n : Nat)
    (h : legalMoves b (activePlayer b) ≠ []) :
    ∃ mv, getMove eval b n = some mv ∧ mv ∈ legalMoves b (activePlayer b) := by
  cases hl : legalMoves b (activePlayer b) with
  | nil => exact absurd hl h
  | cons m rest =>
    have hgm : getMove eval b n =
        (if n = 0 then some m else
          match (minimaxSearch succBoard eval n b).move with
          | some mv => some mv
          | none => some m) := by
      simp only [getMove, hl]
    by_cases hn : n = 0
    · exact ⟨m, by rw [hgm, if_pos hn], List.mem_cons_self m rest⟩
    · rcases hmv : (minimaxSearch succBoard eval n b).move with _ | mv
      · exact ⟨m, by rw [hgm, if_neg hn, hmv], List.mem_cons_self m rest⟩
      · refine ⟨mv, by rw [hgm, if_neg hn, hmv], ?_⟩
        have hmem : mv ∈ legalMoves b (activePlayer b) := by
          rw [← succBoard_fsts b]
          exact minimax_move_mem succBoard eval n true b mv hmv
        exact hl ▸ hmem

/-- Witness for claim C6 at the fresh 7x7 board with an exhausted budget. -/
theorem claim_C6_witness :
    legalMoves (Board.init 7 7) (activePlayer (Board.init 7 7)) ≠ [] ∧
      ∃ mv, getMove (fun _ => (0 : Score)) (Board.init 7 7) 0 = some mv ∧
        mv ∈ legalMoves (Board.init 7 7) (activePlayer (Board.init 7 7)) :=
  ⟨by decide,
   claim_C6_budget_returns_legal (fun _ => (0 : Score)) (Board.init 7 7) 0 (by decide)⟩

/-- Claim C7: at every node with children, minimax selects the first
child (in enumeration order) whose subtree score equals the best score
of the node, for both the maximizing and the minimizing player; the alpha-beta
entry point selects the same first best-scoring child. -/
theorem claim_C7_first_move_tiebreak {σ μ : Type} (succ : σ → List (μ × σ))
    (eval : σ → Score) (d : Nat) (maxP : Bool) (b : σ) (ch : μ × σ)
    (rest : List (μ × σ)) (h : succ b = ch :: rest) :
    (∃ pr, List.find? (fun q => decide (q.2 = (minimax succ eval (d + 1) maxP b).score))
        ((ch.1, (minimax succ eval d (!maxP) ch.2).score) ::
          rest.map fun p => (p.1, (minimax succ eval d (!maxP) p.2).score)) = some pr ∧
      (minimax succ eval (d + 1) maxP b).move = some pr.1) ∧
    (∃ pr, List.find? (fun q => decide (q.2 = (alphabetaSearch succ eval (d + 1) b).score))
        ((ch.1, (minimax succ eval d false ch.2).score) ::
          rest.map fun p => (p.1, (minimax succ eval d false p.2).score)) = some pr ∧
      (alphabetaSearch succ eval (d + 1) b).move = some pr.1) := by
  constructor
  · rw [minimax_cons_parts succ eval d maxP b ch rest h]
    dsimp only
    cases maxP with
    | true => exact ⟨_, selBest_true_find _ _, rfl⟩
    | false => exact ⟨_, selBest_false_find _ _, rfl⟩
  · obtain ⟨hs, hm⟩ := searchRoot_eq succ eval (d + 1) b
    rw [hs, hm, minimaxSearch, minimax_cons_parts_true succ eval d b ch rest h]
    dsimp only
    exact ⟨_, selBest_true_find _ _, rfl⟩

/-- Witness for claim C7 on a two-move one-ply game. -/
theorem claim_C7_witness :
    ((fun _ : Unit => [((0 : Nat), ()), ((1 : Nat), ())]) () =
      ((0 : Nat), ()) :: [((1 : Nat), ())]) ∧
    ((∃ pr, List.find? (fun q => decide (q.2 =
          (minimax (fun _ : Unit => [((0 : Nat), ()), ((1 : Nat), ())])
            (fun _ => (0 : Score)) 1 true ()).score))
        (((0 : Nat), (minimax (fun _ : Unit => [((0 : Nat), ()), ((1 : Nat), ())])
            (fun _ => (0 : Score)) 0 false ()).score) ::
          [((1 : Nat), ())].map fun p =>
            (p.1, (minimax (fun _ : Unit => [((0 : Nat), ()), ((1 : Nat), ())])
              (fun _ => (0 : Score)) 0 false p.2).score)) = some pr ∧
      (minimax (fun _ : Unit => [((0 : Nat), ()), ((1 : Nat), ())])
        (fun _ => (0 : Score)) 1 true ()).move = some pr.1) ∧
    (∃ pr, List.find? (fun q => decide (q.2 =
          (alphabetaSearch (fun _ : Unit => [((0 : Nat), ()), ((1 : Nat), ())])
            (fun _ => (0 : Score)) 1 ()).score))
        (((0 : Nat), (minimax (fun _ : Unit => [((0 : Nat), ()), ((1 : Nat), ())])
            (fun _ => (0 : Score)) 0 false ()).score) ::
          [((1 : Nat), ())].map fun p =>
            (p.1, (minimax (fun _ : Unit => [((0 : Nat), ()), ((1 : Nat), ())])
              (fun _ => (0 : Score)) 0 false p.2).score)) = some pr ∧
      (alphabetaSearch (fun _ : Unit => [((0 : Nat), ()), ((1 : Nat), ())])
        (fun _ => (0 : Score)) 1 ()).move = some pr.1)) :=
  ⟨rfl, claim_C7_first_move_tiebreak
    (fun _ : Unit => [((0 : Nat), ()), ((1 : Nat), ())]) (fun _ => (0 : Score))
    0 true () ((0 : Nat), ()) [((1 : Nat), ())] rfl⟩

/-- Claim C8: recognize returns one probability dict and one guess per
test item, in iteration order (both lists have exactly the length of the
test set), and the key list of every probability dict is exactly the key
list of the models dict. -/
theorem claim_C8_recognize_shape {Item : Type}
    (models : List (String × WordModel Item)) (ts : List Item) :
    (recognize models ts).1.length = ts.length ∧
    (recognize models ts).2.length = ts.length ∧
    (recognize models ts).1.map (fun pr => pr.map Prod.fst) =
      ts.map fun _ => models.map Prod.fst := by
  induction ts with
  | nil => exact ⟨rfl, rfl, rfl⟩
  | cons t ts ih =>
    rw [recognize_cons]
    refine ⟨?_, ?_, ?_⟩
    · simp only [List.length_cons, ih.1]
    · simp only [List.length_cons, ih.2.1]
    · rw [List.map_cons, List.map_cons, ih.2.2, scoreModels_fst, List.map_map]
      rfl

/-- Claim C9: for a test item on which the score call of every model raises
(or with an empty models dict), the appended guess is None and every word
of the probability dict of that item is mapped to -Inf; a word whose model
scores successfully is mapped to its returned log-likelihood. -/
theorem claim_C9_recognize_guesses {Item : Type}
    (models : List (String × WordModel Item)) (ts : List Item) (k : Nat)
    (item : Item) (hk : ts[k]? = some item) :
    ((∀ pm ∈ models, pm.2 item = none) →
      (recognize models ts).2[k]? = some none ∧
      ((recognize models ts).1[k]?).map (fun pr => pr.map Prod.snd) =
        some (models.map fun _ => (⊥ : WithBot ℤ))) ∧
    (∀ (i : Nat) (w : String) (m : WordModel Item) (s : ℤ),
      models[i]? = some (w, m) → m item = some s →
      ((recognize models ts).1[k]?).bind (fun pr => pr[i]?) =
        some (w, (s : WithBot ℤ))) := by
  constructor
  · intro hall
    constructor
    · rw [recognize_get2 models ts k, hk, Option.map_some']
      rw [(scoreModels_allnone item models ⊥ none hall).1]
    · rw [recognize_get1 models ts k, hk, Option.map_some', Option.map_some']
      rw [scoreModels_fst, List.map_map]
      congr 1
      apply List.map_congr_left
      intro pm hpm
      show scoreVal (pm.2 item) = ⊥
      rw [hall pm hpm]
      rfl
  · intro i w m s hi hs
    rw [recognize_get1 models ts k, hk, Option.map_some', Option.some_bind]
    rw [scoreModels_fst, List.getElem?_map, hi, Option.map_some']
    show some (w, scoreVal (m item)) = _
    rw [hs]
    rfl

/-- Witness for claim C9: one all-raising model yields guess None and a
-Inf entry; the entry of one succeeding model is its log-likelihood. -/
theorem claim_C9_witness :
    (([()] : List Unit)[0]? = some ()) ∧
    ((recognize ([("A", fun _ => none)] : List (String × WordModel Unit)) [()]).2[0]? =
        some none ∧
      ((recognize ([("A", fun _ => none)] : List (String × WordModel Unit)) [()]).1[0]?).map
          (fun pr => pr.map Prod.snd) =
        some (([("A", fun _ => none)] : List (String × WordModel Unit)).map
          fun _ => (⊥ : WithBot ℤ))) ∧
    (((recognize ([("B", fun _ => some 7)] : List (String × WordModel Unit)) [()]).1[0]?).bind
        (fun pr => pr[0]?) = some ("B", ((7 : ℤ) : WithBot ℤ))) :=
  ⟨rfl,
   (claim_C9_recognize_guesses ([("A", fun _ => none)] : List (String × WordModel Unit))
      [()] 0 () rfl).1
     (fun pm hpm => by rw [List.mem_singleton.mp hpm]),
   (claim_C9_recognize_guesses ([("B", fun _ => some 7)] : List (String × WordModel Unit))
      [()] 0 () rfl).2 0 "B" (fun _ => some 7) 7 rfl rfl⟩

theorem selectCV_parts {D : Type} (baseModel : ℕ → D → Option (HMM D))
    (combine : List ℕ → D) (splits : List (List ℕ × List ℕ)) (seqLen : ℕ)
    (X0 : D) (minN maxN nConst : ℕ) :
    (∀ k ∈ (selectCV baseModel combine splits seqLen X0 minN maxN nConst).2,
      (minN ≤ k ∧ k < maxN) ∨ k = nConst) ∧
    ((selectCV baseModel combine splits seqLen X0 minN maxN nConst).1 = none ∨
      (∃ d, (selectCV baseModel combine splits seqLen X0 minN maxN nConst).1 =
        baseModel nConst d) ∨
      ∃ n, minN ≤ n ∧ n < maxN ∧ ∃ d,
        (selectCV baseModel combine splits seqLen X0 minN maxN nConst).1 =
          baseModel n d) := by
  unfold selectCV
  by_cases hs : seqLen < 3
  · rw [if_pos hs]
    constructor
    · intro k hk
      exact Or.inr (List.mem_singleton.mp hk)
    · exact Or.inr (Or.inl ⟨X0, rfl⟩)
  · rw [if_neg hs]
    obtain ⟨hT, hM⟩ := selectCVGo_spec baseModel combine splits
      (List.range' minN (maxN - minN)) X0 ⊥ none []
    dsimp only
    rcases hr : (selectCVGo baseModel combine splits
        (List.range' minN (maxN - minN)) X0 ⊥ none []).1 with _ | m
    · dsimp only
      constructor
      · intro k hk
        rcases List.mem_append.mp hk with hk' | hk'
        · rcases hT k hk' with hk'' | hk''
          · exact absurd hk'' (List.not_mem_nil k)
          · obtain ⟨i, hi, hki⟩ := List.mem_range'.mp hk''
            exact Or.inl ⟨by omega, by omega⟩
        · exact Or.inr (List.mem_singleton.mp hk')
      · exact Or.inr (Or.inl ⟨(selectCVGo baseModel combine splits
          (List.range' minN (maxN - minN)) X0 ⊥ none []).2.1, rfl⟩)
    · dsimp only
      constructor
      · intro k hk
        rcases hT k hk with hk'' | hk''
        · exact absurd hk'' (List.not_mem_nil k)
        · obtain ⟨i, hi, hki⟩ := List.mem_range'.mp hk''
          exact Or.inl ⟨by omega, by omega⟩
      · rcases hM with hcontr | hcontr | ⟨n, hn, d, hd⟩
        · rw [hr] at hcontr
          cases hcontr
        · rw [hr] at hcontr
          cases hcontr
        · obtain ⟨i, hi, hni⟩ := List.mem_range'.mp hn
          rw [hr] at hd
          exact Or.inr (Or.inr ⟨n, by omega, by omega, d, hd⟩)

/-- Claim C10: SelectorDIC and SelectorBIC only ever train candidate
models with component counts in range(min_n_components,
max_n_components) -- the half-open range excluding max_n_components --
and any returned model was fitted at such a count; SelectorCV trains only
such counts apart from its n_constant fallback, and returns either a
model fitted at a count in the range or the n_constant fallback model. -/
theorem claim_C10_selector_component_range {D : Type}
    (baseModel : ℕ → D → Option (HMM D)) (X : D) (hwords : List (String × D))
    (logN : ℚ) (combine : List ℕ → D) (splits : List (List ℕ × List ℕ))
    (seqLen : ℕ) (X0 : D) (minN maxN nConst : ℕ) :
    ((selectDIC baseModel X hwords minN maxN).2 = List.range' minN (maxN - minN) ∧
      ((selectDIC baseModel X hwords minN maxN).1 = none ∨
        ∃ n, minN ≤ n ∧ n < maxN ∧
          (selectDIC baseModel X hwords minN maxN).1 = baseModel n X)) ∧
    ((selectBIC baseModel X logN minN maxN).2 = List.range' minN (maxN - minN) ∧
      ((selectBIC baseModel X logN minN maxN).1 = none ∨
        ∃ n, minN ≤ n ∧ n < maxN ∧
          (selectBIC baseModel X logN minN maxN).1 = baseModel n X)) ∧
    (((selectCV baseModel combine splits seqLen X0 minN maxN nConst).2.all
        fun k => (decide (minN ≤ k) && decide (k < maxN)) || decide (k = nConst)) = true ∧
      ((selectCV baseModel combine splits seqLen X0 minN maxN nConst).1 = none ∨
        (∃ d, (selectCV baseModel combine splits seqLen X0 minN maxN nConst).1 =
          baseModel nConst d) ∨
        ∃ n, minN ≤ n ∧ n < maxN ∧ ∃ d,
          (selectCV baseModel combine splits seqLen X0 minN maxN nConst).1 =
            baseModel n d)) := by
  refine ⟨?_, ?_, ?_⟩
  · obtain ⟨h2, h1⟩ := selectDICGo_spec baseModel X hwords
      (List.range' minN (maxN - minN)) ⊥ none []
    refine ⟨h2.trans (List.nil_append _), ?_⟩
    rcases h1 with h | ⟨n, hn, he⟩
    · exact Or.inl h
    · obtain ⟨i, hi, hni⟩ := List.mem_range'.mp hn
      exact Or.inr ⟨n, by omega, by omega, he⟩
  · obtain ⟨h2, h1⟩ := selectBICGo_spec baseModel X logN
      (List.range' minN (maxN - minN)) ⊤ none []
    refine ⟨h2.trans (List.nil_append _), ?_⟩
    rcases h1 with h | ⟨n, hn, he⟩
    · exact Or.inl h
    · obtain ⟨i, hi, hni⟩ := List.mem_range'.mp hn
      exact Or.inr ⟨n, by omega, by omega, he⟩
  · obtain ⟨hT, hM⟩ := selectCV_parts baseModel combine splits seqLen X0 minN maxN nConst
    refine ⟨?_, hM⟩
    rw [List.all_eq_true]
    intro k hk
    rcases hT k hk with ⟨h1, h2⟩ | h1
    · simp [h1, h2]
    · simp [h1]

end AIND
